import Mathlib

/-!
Verification of the hierarchical text-diff engine of the PDF-Comparator
repository (`src/text_comparison.py`): `compare_texts` (paragraph-level
alignment via Python `difflib.SequenceMatcher(None, ., .)`, with one-level
sentence refinement of `replace` spans) and `generate_summary`.

Python strings are embedded as `List Char`.  `difflib.SequenceMatcher` is
embedded as instantiated by the repository: `isjunk = None` (so the junk set
is empty and the two junk-extension loops of `find_longest_match` never run)
and `autojunk = True` (the "popular element" heuristic on sequences of
length at least 200).  Percentages (Python floats obtained by exact
divisions of small integers) are embedded as rationals.
-/

namespace PdfCompare

/-- Python strings are modelled as lists of characters. -/
abbrev Str := List Char

/-- The set of characters matched by Python's `\s` (for `str` patterns) and
by `str.split()` with no argument: ASCII whitespace, the C1 controls
`\x1c`-`\x1f`, NEL, NBSP and the Unicode space separators. -/
def isPySpace (c : Char) : Bool :=
  let n := c.toNat
  (n == 32) || (9 ≤ n && n ≤ 13) || (28 ≤ n && n ≤ 31) || (n == 133) ||
  (n == 160) || (n == 5760) || (8192 ≤ n && n ≤ 8202) || (n == 8232) ||
  (n == 8233) || (n == 8239) || (n == 8287) || (n == 12288)

/-- The sentence-terminating characters of the regex `(?<=[.!?])\s+`. -/
def isSentPunct (c : Char) : Bool :=
  (c == '.') || (c == '!') || (c == '?')

/-- `'\n\n'`, the paragraph delimiter. -/
def nl2 : Str := ['\n', '\n']

/-- Helper: prepend a character to the first piece of a split result. -/
def consHead (c : Char) : List Str → List Str
  | [] => [[c]]
  | p :: ps => (c :: p) :: ps

/-- Python `text.split('\n\n')`: leftmost non-overlapping occurrences of the
two-character separator; empty pieces are kept ( `''.split('\n\n') = ['']` ). -/
def splitTwoNl : Str → List Str
  | [] => [[]]
  | [c] => [[c]]
  | c1 :: c2 :: rest =>
    if c1 = '\n' ∧ c2 = '\n' then [] :: splitTwoNl rest
    else consHead c1 (splitTwoNl (c2 :: rest))

/-- State-passing core of `re.split(r'(?<=[.!?])\s+', s)`.  `prevPunct`
records whether the previous character of the original string is one of
`.!?` (the lookbehind); a match of the greedy `\s+` consumes a maximal
nonempty whitespace run, which is realised structurally by the `skipping`
flag: after the first whitespace of a match the scanner stays in skipping
mode and discards further whitespace characters of the run. -/
def sentGo : Bool → Bool → Str → List Str
  | _, _, [] => [[]]
  | skipping, prevPunct, c :: rest =>
    if skipping && isPySpace c then sentGo true false rest
    else if prevPunct && isPySpace c then [] :: sentGo true false rest
    else consHead c (sentGo false (isSentPunct c) rest)

/-- `re.split(r'(?<=[.!?])\s+', s)` from the source's sentence heuristic. -/
def sentSplit (s : Str) : List Str := sentGo false false s

/-- Accumulator form of Python `str.split()` (whitespace tokenisation
dropping empty tokens); `acc` is the word currently being read. -/
def pyWordsGo : Str → Str → List Str
  | acc, [] => if acc = [] then [] else [acc]
  | acc, c :: rest =>
    if isPySpace c then
      if acc = [] then pyWordsGo [] rest else acc :: pyWordsGo [] rest
    else
      pyWordsGo (acc ++ [c]) rest

/-- Python `s.split()`: the list of maximal nonempty non-whitespace runs. -/
def pyWords (s : Str) : List Str := pyWordsGo [] s

/-- Python slicing `l[i:j]` for `0 ≤ i ≤ j` (clamped at the length). -/
def pySlice (l : List α) (i j : Nat) : List α := (l.drop i).take (j - i)

/-- Python `text.replace(c, r)` for a single-character pattern `c`. -/
def replaceChar (c : Char) (r : Str) (s : Str) : Str :=
  s.flatMap (fun x => if x = c then r else [x])

/-- `sanitize_for_display` from `compare_texts`: the four successive
single-character `str.replace` calls. -/
def sanitize (s : Str) : Str :=
  replaceChar '}' ("&#125;".data)
    (replaceChar '{' ("&#123;".data)
      (replaceChar '>' ("&gt;".data)
        (replaceChar '<' ("&lt;".data) s)))

/-! ### The `difflib.SequenceMatcher` model (isjunk = None, autojunk = True) -/

/-- `autojunk`: an element of `b` is "popular" when `len(b) >= 200` and it
occurs more than `len(b) // 100 + 1` times; popular elements are removed
from the `b2j` index. -/
def isPopular (b : List Str) (x : Str) : Bool :=
  decide (200 ≤ b.length) && decide (b.length / 100 + 1 < b.count x)

/-- The `b2j` index: the ascending list of positions of `x` in `b`, or `[]`
when `x` is popular (or absent). -/
def b2j (b : List Str) (x : Str) : List Nat :=
  if isPopular b x then []
  else (List.range b.length).filter (fun j => decide (b.getD j [] = x))

/-- A candidate match `(besti, bestj, bestsize)` of `find_longest_match`. -/
structure MB where
  bi : Nat
  bj : Nat
  bs : Nat
deriving DecidableEq, Repr

/-- One step of the inner loop of `find_longest_match`: at cell `(i, j)` the
chain value is `j2len.get(j-1, 0) + 1` read from the previous row, the new
row map is extended at `j`, and the best match is updated on a strict
improvement.  (`i + 1 - k` is Python's `i - k + 1`: the chain invariant
keeps `k ≤ i + 1`, so the truncated subtraction agrees with Python's.) -/
def cellStep (j2old : Nat → Nat) (i : Nat) (st : MB × (Nat → Nat)) (j : Nat) :
    MB × (Nat → Nat) :=
  let k := (if j = 0 then 0 else j2old (j - 1)) + 1
  let nf := fun j' => if j' = j then k else st.2 j'
  let best := if st.1.bs < k then ⟨i + 1 - k, j + 1 - k, k⟩ else st.1
  (best, nf)

/-- One row `i` of the main loop: iterate over `b2j[a[i]]`, skipping `j <
blo` and stopping at `j ≥ bhi` (the stored position lists are ascending, so
Python's `continue`/`break` pair is a filter), building the fresh `newj2len`. -/
def rowStep (a b : List Str) (blo bhi : Nat) (st : MB × (Nat → Nat)) (i : Nat) :
    MB × (Nat → Nat) :=
  let js := (b2j b (a.getD i [])).filter (fun j => decide (blo ≤ j) && decide (j < bhi))
  js.foldl (cellStep st.2 i) (st.1, fun _ => 0)

/-- The main dynamic-programming loop of `find_longest_match`. -/
def mainLoop (a b : List Str) (alo ahi blo bhi : Nat) : MB :=
  ((List.range' alo (ahi - alo)).foldl (rowStep a b blo bhi)
    (⟨alo, blo, 0⟩, fun _ => 0)).1

/-- The backward extension loop of `find_longest_match` (the junk set is
empty, so only the element-equality extension applies).  `fuel ≥ bi - alo`
makes the fuelled recursion equal to Python's `while` loop, since each step
decreases `bi`. -/
def extBack (a b : List Str) (alo blo : Nat) : Nat → MB → MB
  | 0, st => st
  | fuel + 1, st =>
    if alo < st.bi ∧ blo < st.bj ∧ a.getD (st.bi - 1) [] = b.getD (st.bj - 1) [] then
      extBack a b alo blo fuel ⟨st.bi - 1, st.bj - 1, st.bs + 1⟩
    else st

/-- The forward extension loop of `find_longest_match`. -/
def extFwd (a b : List Str) (ahi bhi : Nat) : Nat → MB → MB
  | 0, st => st
  | fuel + 1, st =>
    if st.bi + st.bs < ahi ∧ st.bj + st.bs < bhi ∧
        a.getD (st.bi + st.bs) [] = b.getD (st.bj + st.bs) [] then
      extFwd a b ahi bhi fuel ⟨st.bi, st.bj, st.bs + 1⟩
    else st

/-- `find_longest_match(alo, ahi, blo, bhi)` with an empty junk set. -/
def flm (a b : List Str) (alo ahi blo bhi : Nat) : MB :=
  let m0 := mainLoop a b alo ahi blo bhi
  let m1 := extBack a b alo blo (m0.bi - alo) m0
  extFwd a b ahi bhi (ahi - (m1.bi + m1.bs)) m1

/-- The recursive block collection of `get_matching_blocks`, written as a
structural recursion that lists the blocks of the front sub-rectangle, the
found block, and the blocks of the back sub-rectangle in order.  This order
is exactly the result of Python's `matching_blocks.sort()`: every block of
the front rectangle precedes the found block in both coordinates, which
precedes every block of the back rectangle.  The fuel only needs to exceed
`(ahi - alo) + (bhi - blo)`, which shrinks at every recursive call. -/
def mblocksF (a b : List Str) : Nat → Nat × Nat × Nat × Nat → List (Nat × Nat × Nat)
  | 0, _ => []
  | fuel + 1, (alo, ahi, blo, bhi) =>
    let m := flm a b alo ahi blo bhi
    if m.bs = 0 then []
    else
      (if alo < m.bi ∧ blo < m.bj then mblocksF a b fuel (alo, m.bi, blo, m.bj) else [])
      ++ (m.bi, m.bj, m.bs)
      :: (if m.bi + m.bs < ahi ∧ m.bj + m.bs < bhi then
            mblocksF a b fuel (m.bi + m.bs, ahi, m.bj + m.bs, bhi) else [])

/-- The adjacent-block merging pass of `get_matching_blocks`, carrying the
accumulator `(i1, j1, k1)` (initially `(0, 0, 0)`), and appending the
`(la, lb, 0)` sentinel at the end. -/
def mergeGo (la lb : Nat) : Nat × Nat × Nat → List (Nat × Nat × Nat) → List (Nat × Nat × Nat)
  | (i1, j1, k1), [] =>
    (if k1 = 0 then [] else [(i1, j1, k1)]) ++ [(la, lb, 0)]
  | (i1, j1, k1), (i2, j2, k2) :: rest =>
    if i1 + k1 = i2 ∧ j1 + k1 = j2 then
      mergeGo la lb (i1, j1, k1 + k2) rest
    else
      (if k1 = 0 then [] else [(i1, j1, k1)]) ++ mergeGo la lb (i2, j2, k2) rest

/-- `get_matching_blocks()`: recursive collection, sort, merge, sentinel. -/
def matchingBlocks (a b : List Str) : List (Nat × Nat × Nat) :=
  mergeGo a.length b.length (0, 0, 0)
    (mblocksF a b (a.length + b.length + 1) (0, a.length, 0, b.length))

/-- The four opcode tags (Python uses the strings `'equal'`, `'replace'`,
`'delete'`, `'insert'`). -/
inductive DTag
  | equal
  | replace
  | delete
  | insert
deriving DecidableEq, Repr

/-- One opcode `(tag, i1, i2, j1, j2)`. -/
structure Opcode where
  tag : DTag
  i1 : Nat
  i2 : Nat
  j1 : Nat
  j2 : Nat
deriving DecidableEq, Repr

/-- The opcode-generation loop of `get_opcodes()` over the matching blocks. -/
def opcodesGo : Nat → Nat → List (Nat × Nat × Nat) → List Opcode
  | _, _, [] => []
  | i, j, (ai, bj, size) :: rest =>
    (if i < ai ∧ j < bj then [⟨.replace, i, ai, j, bj⟩]
     else if i < ai then [⟨.delete, i, ai, j, bj⟩]
     else if j < bj then [⟨.insert, i, ai, j, bj⟩]
     else [])
    ++ (if size = 0 then [] else [⟨.equal, ai, ai + size, bj, bj + size⟩])
    ++ opcodesGo (ai + size) (bj + size) rest

/-- `SequenceMatcher(None, a, b).get_opcodes()`. -/
def getOpcodes (a b : List Str) : List Opcode :=
  opcodesGo 0 0 (matchingBlocks a b)

/-! ### `compare_texts` -/

/-- One difference object of `compare_texts`; the `type` field is the
Python string tag (`'equal'`, `'modified'`, `'deleted'`, `'added'`, or — at
the summariser's boundary — anything). -/
structure DiffRecord where
  type : Str
  old_content : Str
  new_content : Str
deriving DecidableEq, Repr

/-- Record emission for one sentence-level opcode inside a paragraph
`replace` span (`old_sentences`/`new_sentences` are `os`/`ns`). -/
def emitSentOp (os ns : List Str) (op : Opcode) : List DiffRecord :=
  match op.tag with
  | .equal =>
    (List.range' op.i1 (op.i2 - op.i1)).map
      (fun si => ⟨"equal".data, os.getD si [], os.getD si []⟩)
  | .replace =>
    [⟨"modified".data, List.intercalate [' '] (pySlice os op.i1 op.i2),
      List.intercalate [' '] (pySlice ns op.j1 op.j2)⟩]
  | .delete =>
    [⟨"deleted".data, List.intercalate [' '] (pySlice os op.i1 op.i2), []⟩]
  | .insert =>
    [⟨"added".data, [], List.intercalate [' '] (pySlice ns op.j1 op.j2)⟩]

/-- Record emission for one paragraph-level opcode: `equal`/`delete`/
`insert` emit one record per paragraph index; `replace` joins each span with
`'\n\n'`, splits into sentences, and maps the sentence-level opcodes. -/
def emitParaOp (ps1 ps2 : List Str) (op : Opcode) : List DiffRecord :=
  match op.tag with
  | .equal =>
    (List.range' op.i1 (op.i2 - op.i1)).map
      (fun i => ⟨"equal".data, ps1.getD i [], ps1.getD i []⟩)
  | .replace =>
    let oldC := List.intercalate nl2 (pySlice ps1 op.i1 op.i2)
    let newC := List.intercalate nl2 (pySlice ps2 op.j1 op.j2)
    let os := sentSplit oldC
    let ns := sentSplit newC
    (getOpcodes os ns).flatMap (emitSentOp os ns)
  | .delete =>
    (List.range' op.i1 (op.i2 - op.i1)).map
      (fun i => ⟨"deleted".data, ps1.getD i [], []⟩)
  | .insert =>
    (List.range' op.j1 (op.j2 - op.j1)).map
      (fun j => ⟨"added".data, [], ps2.getD j []⟩)

/-- `compare_texts(text1, text2)` from `src/text_comparison.py`. -/
def compare_texts (text1 text2 : Str) : List DiffRecord :=
  let t1 := sanitize text1
  let t2 := sanitize text2
  let ps1 := splitTwoNl t1
  let ps2 := splitTwoNl t2
  (getOpcodes ps1 ps2).flatMap (emitParaOp ps1 ps2)

/-! ### `generate_summary` -/

/-- Per-kind statistics for `added`/`deleted` in the summary dictionary. -/
structure ChangeStat where
  count : Nat
  percentage : ℚ
  words : Nat
deriving DecidableEq, Repr

/-- Statistics for `modified` records. -/
structure ModStat where
  count : Nat
  percentage : ℚ
  words_old : Nat
  words_new : Nat
deriving DecidableEq, Repr

/-- Statistics for `equal` records (no word accounting). -/
structure EqStat where
  count : Nat
  percentage : ℚ
deriving DecidableEq, Repr

/-- The summary dictionary of `generate_summary`. -/
structure Summary where
  total_elements : Nat
  additions : ChangeStat
  deletions : ChangeStat
  modifications : ModStat
  unchanged : EqStat
deriving DecidableEq, Repr

/-- The accumulation state of `generate_summary`'s single pass. -/
structure SumSt where
  added : Nat
  deleted : Nat
  modified : Nat
  unchanged : Nat
  added_content : List Str
  deleted_content : List Str
  modified_content : List (Str × Str)
deriving DecidableEq, Repr

/-- One iteration of `generate_summary`'s loop: records whose `type` is not
one of the four known tags fall through every branch. -/
def sumStep (st : SumSt) (d : DiffRecord) : SumSt :=
  if d.type = "added".data then
    { st with added := st.added + 1, added_content := st.added_content ++ [d.new_content] }
  else if d.type = "deleted".data then
    { st with deleted := st.deleted + 1,
              deleted_content := st.deleted_content ++ [d.old_content] }
  else if d.type = "modified".data then
    { st with modified := st.modified + 1,
              modified_content := st.modified_content ++ [(d.old_content, d.new_content)] }
  else if d.type = "equal".data then
    { st with unchanged := st.unchanged + 1 }
  else st

/-- `len(content.split())`. -/
def wordCount (s : Str) : Nat := (pyWords s).length

/-- The guarded percentage `count / total * 100 if total > 0 else 0`,
with the exact rational value of the division. -/
def pct (count total : Nat) : ℚ :=
  if 0 < total then (count : ℚ) / (total : ℚ) * 100 else 0

/-- `generate_summary(diffs)` from `src/text_comparison.py`. -/
def generate_summary (diffs : List DiffRecord) : Summary :=
  let st := diffs.foldl sumStep ⟨0, 0, 0, 0, [], [], []⟩
  let total := st.added + st.deleted + st.modified + st.unchanged
  { total_elements := total
    additions :=
      { count := st.added
        percentage := pct st.added total
        words := (st.added_content.map wordCount).sum }
    deletions :=
      { count := st.deleted
        percentage := pct st.deleted total
        words := (st.deleted_content.map wordCount).sum }
    modifications :=
      { count := st.modified
        percentage := pct st.modified total
        words_old := (st.modified_content.map (fun p => wordCount p.1)).sum
        words_new := (st.modified_content.map (fun p => wordCount p.2)).sum }
    unchanged :=
      { count := st.unchanged
        percentage := pct st.unchanged total } }

/-! ### Lemmas about `generate_summary` -/

/-- `d` is an `'added'` record. -/
def isAddedT (d : DiffRecord) : Bool := decide (d.type = "added".data)

/-- `d` is a `'deleted'` record. -/
def isDeletedT (d : DiffRecord) : Bool := decide (d.type = "deleted".data)

/-- `d` is a `'modified'` record. -/
def isModifiedT (d : DiffRecord) : Bool := decide (d.type = "modified".data)

/-- `d` is an `'equal'` record. -/
def isEqualT (d : DiffRecord) : Bool := decide (d.type = "equal".data)

/-- The record types recognised by `generate_summary`'s branch chain. -/
def recognizedT (d : DiffRecord) : Bool :=
  isAddedT d || isDeletedT d || isModifiedT d || isEqualT d

/-- Closed form of `generate_summary`'s accumulation pass from an arbitrary
initial state. -/
theorem foldl_sumStep (diffs : List DiffRecord) (st : SumSt) :
    diffs.foldl sumStep st =
      ⟨st.added + (diffs.filter isAddedT).length,
       st.deleted + (diffs.filter isDeletedT).length,
       st.modified + (diffs.filter isModifiedT).length,
       st.unchanged + (diffs.filter isEqualT).length,
       st.added_content ++ (diffs.filter isAddedT).map (·.new_content),
       st.deleted_content ++ (diffs.filter isDeletedT).map (·.old_content),
       st.modified_content ++ (diffs.filter isModifiedT).map
         (fun d => (d.old_content, d.new_content))⟩ := by
  induction diffs generalizing st with
  | nil => simp
  | cons d ds ih =>
    rw [List.foldl_cons, ih]
    by_cases h1 : d.type = "added".data
    · have e1 : isAddedT d = true := decide_eq_true h1
      have e2 : isDeletedT d = false :=
        decide_eq_false fun hh => absurd (h1.symm.trans hh) (by decide)
      have e3 : isModifiedT d = false :=
        decide_eq_false fun hh => absurd (h1.symm.trans hh) (by decide)
      have e4 : isEqualT d = false :=
        decide_eq_false fun hh => absurd (h1.symm.trans hh) (by decide)
      simp only [sumStep, if_pos h1, List.filter_cons, e1, e2, e3, e4, if_true, if_false,
        Bool.false_eq_true, List.length_cons, List.map_cons]
      congr 1 <;> first | omega | simp
    · by_cases h2 : d.type = "deleted".data
      · have e1 : isAddedT d = false := decide_eq_false h1
        have e2 : isDeletedT d = true := decide_eq_true h2
        have e3 : isModifiedT d = false :=
          decide_eq_false fun hh => absurd (h2.symm.trans hh) (by decide)
        have e4 : isEqualT d = false :=
          decide_eq_false fun hh => absurd (h2.symm.trans hh) (by decide)
        simp only [sumStep, if_neg h1, if_pos h2, List.filter_cons, e1, e2, e3, e4,
          if_true, if_false, Bool.false_eq_true, List.length_cons, List.map_cons]
        congr 1 <;> first | omega | simp
      · by_cases h3 : d.type = "modified".data
        · have e1 : isAddedT d = false := decide_eq_false h1
          have e2 : isDeletedT d = false := decide_eq_false h2
          have e3 : isModifiedT d = true := decide_eq_true h3
          have e4 : isEqualT d = false :=
            decide_eq_false fun hh => absurd (h3.symm.trans hh) (by decide)
          simp only [sumStep, if_neg h1, if_neg h2, if_pos h3, List.filter_cons, e1, e2,
            e3, e4, if_true, if_false, Bool.false_eq_true, List.length_cons,
            List.map_cons]
          congr 1 <;> first | omega | simp
        · by_cases h4 : d.type = "equal".data
          · have e1 : isAddedT d = false := decide_eq_false h1
            have e2 : isDeletedT d = false := decide_eq_false h2
            have e3 : isModifiedT d = false := decide_eq_false h3
            have e4 : isEqualT d = true := decide_eq_true h4
            simp only [sumStep, if_neg h1, if_neg h2, if_neg h3, if_pos h4,
              List.filter_cons, e1, e2, e3, e4, if_true, if_false, Bool.false_eq_true,
              List.length_cons, List.map_cons]
            congr 1 <;> first | omega | simp
          · have e1 : isAddedT d = false := decide_eq_false h1
            have e2 : isDeletedT d = false := decide_eq_false h2
            have e3 : isModifiedT d = false := decide_eq_false h3
            have e4 : isEqualT d = false := decide_eq_false h4
            simp only [sumStep, if_neg h1, if_neg h2, if_neg h3, if_neg h4,
              List.filter_cons, e1, e2, e3, e4, if_true, if_false, Bool.false_eq_true,
              List.length_cons, List.map_cons]

/-- The four recognised type classes partition the recognised records. -/
theorem recognized_length (diffs : List DiffRecord) :
    (diffs.filter isAddedT).length + (diffs.filter isDeletedT).length +
    (diffs.filter isModifiedT).length + (diffs.filter isEqualT).length =
    (diffs.filter recognizedT).length := by
  induction diffs with
  | nil => rfl
  | cons d ds ih =>
    have hre : recognizedT d = (isAddedT d || isDeletedT d || isModifiedT d || isEqualT d) :=
      rfl
    by_cases h1 : isAddedT d = true <;> by_cases h2 : isDeletedT d = true <;>
      by_cases h3 : isModifiedT d = true <;> by_cases h4 : isEqualT d = true <;>
    · first
      | exact absurd ((of_decide_eq_true h1).symm.trans (of_decide_eq_true h2)) (by decide)
      | exact absurd ((of_decide_eq_true h1).symm.trans (of_decide_eq_true h3)) (by decide)
      | exact absurd ((of_decide_eq_true h1).symm.trans (of_decide_eq_true h4)) (by decide)
      | exact absurd ((of_decide_eq_true h2).symm.trans (of_decide_eq_true h3)) (by decide)
      | exact absurd ((of_decide_eq_true h2).symm.trans (of_decide_eq_true h4)) (by decide)
      | exact absurd ((of_decide_eq_true h3).symm.trans (of_decide_eq_true h4)) (by decide)
      | (simp only [Bool.not_eq_true] at h1 h2 h3 h4
         simp only [List.filter_cons, h1, h2, h3, h4, hre, Bool.true_or, Bool.or_true,
           Bool.false_or, Bool.or_false, if_true, if_false, Bool.false_eq_true,
           List.length_cons]
         omega)

/-! ### Claim theorems about the summariser -/

/-- C7: `generate_summary` applied to the empty record list returns
`total_elements = 0` and percentage `0` for all four kinds (the guarded
percentage never divides by zero); in general each kind's percentage equals
`count / total_elements * 100` when `total_elements > 0` and `0` when
`total_elements = 0`. -/
theorem generate_summary_percentage_guard :
    ((generate_summary []).total_elements = 0 ∧
     (generate_summary []).additions.percentage = 0 ∧
     (generate_summary []).deletions.percentage = 0 ∧
     (generate_summary []).modifications.percentage = 0 ∧
     (generate_summary []).unchanged.percentage = 0) ∧
    ∀ diffs : List DiffRecord,
      ((generate_summary diffs).total_elements = 0 →
        (generate_summary diffs).additions.percentage = 0 ∧
        (generate_summary diffs).deletions.percentage = 0 ∧
        (generate_summary diffs).modifications.percentage = 0 ∧
        (generate_summary diffs).unchanged.percentage = 0) ∧
      (0 < (generate_summary diffs).total_elements →
        ((generate_summary diffs).additions.percentage =
          ((generate_summary diffs).additions.count : ℚ) /
            ((generate_summary diffs).total_elements : ℚ) * 100 ∧
         (generate_summary diffs).deletions.percentage =
          ((generate_summary diffs).deletions.count : ℚ) /
            ((generate_summary diffs).total_elements : ℚ) * 100 ∧
         (generate_summary diffs).modifications.percentage =
          ((generate_summary diffs).modifications.count : ℚ) /
            ((generate_summary diffs).total_elements : ℚ) * 100 ∧
         (generate_summary diffs).unchanged.percentage =
          ((generate_summary diffs).unchanged.count : ℚ) /
            ((generate_summary diffs).total_elements : ℚ) * 100)) := by
  refine ⟨⟨rfl, rfl, rfl, rfl, rfl⟩, fun diffs => ?_⟩
  have eA : (generate_summary diffs).additions.percentage =
      pct (generate_summary diffs).additions.count
        (generate_summary diffs).total_elements := rfl
  have eD : (generate_summary diffs).deletions.percentage =
      pct (generate_summary diffs).deletions.count
        (generate_summary diffs).total_elements := rfl
  have eM : (generate_summary diffs).modifications.percentage =
      pct (generate_summary diffs).modifications.count
        (generate_summary diffs).total_elements := rfl
  have eU : (generate_summary diffs).unchanged.percentage =
      pct (generate_summary diffs).unchanged.count
        (generate_summary diffs).total_elements := rfl
  constructor
  · intro h
    rw [eA, eD, eM, eU, h]
    exact ⟨rfl, rfl, rfl, rfl⟩
  · intro h
    rw [eA, eD, eM, eU]
    exact ⟨if_pos h, if_pos h, if_pos h, if_pos h⟩

/-- Witness for C7 at the empty list and at a concrete one-record list. -/
theorem generate_summary_percentage_guard_witness :
    ((generate_summary []).additions.percentage = 0 ∧
     (generate_summary []).deletions.percentage = 0 ∧
     (generate_summary []).modifications.percentage = 0 ∧
     (generate_summary []).unchanged.percentage = 0) ∧
    (generate_summary [⟨"added".data, [], "a b".data⟩]).additions.percentage =
      ((generate_summary [⟨"added".data, [], "a b".data⟩]).additions.count : ℚ) /
        ((generate_summary [⟨"added".data, [], "a b".data⟩]).total_elements : ℚ) * 100 :=
  ⟨(generate_summary_percentage_guard.2 []).1 (by decide),
   ((generate_summary_percentage_guard.2 [⟨"added".data, [], "a b".data⟩]).2
      (by decide)).1⟩

/-- C9: `generate_summary` on a single `added` record with
`new_content = "a b c"` reports `additions.words = 3` (whitespace
tokenisation of the content). -/
theorem generate_summary_added_word_count :
    (generate_summary [⟨"added".data, [], "a b c".data⟩]).additions.words = 3 := by
  decide

/-- C10: `generate_summary` silently ignores records whose type is not one
of the four recognised tags: every counter is the length of the
corresponding filter, every word total ranges only over records of its own
kind, `total_elements` is the number of recognised records, and on a
concrete single-record list with an unknown tag `total_elements = 0` is
strictly less than the list length. -/
theorem generate_summary_ignores_unknown_types :
    (∀ diffs : List DiffRecord,
      (generate_summary diffs).total_elements = (diffs.filter recognizedT).length ∧
      (generate_summary diffs).additions.count = (diffs.filter isAddedT).length ∧
      (generate_summary diffs).deletions.count = (diffs.filter isDeletedT).length ∧
      (generate_summary diffs).modifications.count = (diffs.filter isModifiedT).length ∧
      (generate_summary diffs).unchanged.count = (diffs.filter isEqualT).length ∧
      (generate_summary diffs).additions.words =
        (((diffs.filter isAddedT).map (·.new_content)).map wordCount).sum ∧
      (generate_summary diffs).deletions.words =
        (((diffs.filter isDeletedT).map (·.old_content)).map wordCount).sum ∧
      (generate_summary diffs).modifications.words_old =
        (((diffs.filter isModifiedT).map (·.old_content)).map wordCount).sum ∧
      (generate_summary diffs).modifications.words_new =
        (((diffs.filter isModifiedT).map (·.new_content)).map wordCount).sum) ∧
    (generate_summary [⟨"banana".data, "x y".data, "z".data⟩]).total_elements = 0 ∧
    ([(⟨"banana".data, "x y".data, "z".data⟩ : DiffRecord)]).length = 1 := by
  refine ⟨fun diffs => ?_, by decide, rfl⟩
  have h := foldl_sumStep diffs ⟨0, 0, 0, 0, [], [], []⟩
  simp only [generate_summary, h, Nat.zero_add, List.nil_append]
  repeat' apply And.intro
  all_goals first | exact recognized_length diffs | rfl | trivial | simp [List.map_map, Function.comp_def]

/-! ### Concrete claim theorems about `compare_texts` -/

/-- Input A of the spec's concrete scenario. -/
def textA : Str := "The cat sat.\n\nDogs bark loudly.".data

/-- Input B of the spec's concrete scenario. -/
def textB : Str := "The cat sat.\n\nDogs howl loudly. New paragraph here.".data

/-- C1 counterexample: on the spec's concrete scenario the engine does not
return the claimed three records (`equal`, `modified` pairing the two "Dogs"
sentences, `added` for the new sentence): the sentence matcher finds no
equal sentence inside the replaced paragraph, so no such record list is
produced. -/
theorem compare_texts_scenario_counterexample :
    compare_texts textA textB ≠
      [⟨"equal".data, "The cat sat.".data, "The cat sat.".data⟩,
       ⟨"modified".data, "Dogs bark loudly.".data, "Dogs howl loudly.".data⟩,
       ⟨"added".data, [], "New paragraph here.".data⟩] := by
  decide

/-- C1 amended: on the spec's concrete scenario the engine returns exactly
two records in order: an `equal` record for "The cat sat." and a single
`modified` record pairing "Dogs bark loudly." with the whole replacement
"Dogs howl loudly. New paragraph here.". -/
theorem compare_texts_scenario :
    compare_texts textA textB =
      [⟨"equal".data, "The cat sat.".data, "The cat sat.".data⟩,
       ⟨"modified".data, "Dogs bark loudly.".data,
        "Dogs howl loudly. New paragraph here.".data⟩] := by
  decide

/-- C2 counterexample: "cat" and "dog" share no paragraphs and are single
paragraphs with no shared sentences, yet the engine emits a single
`modified` record spanning the unrelated contents, not only
`deleted`/`added` records. -/
theorem compare_texts_unrelated_counterexample :
    ¬ ∀ r ∈ compare_texts ("cat".data) ("dog".data),
        r.type = "deleted".data ∨ r.type = "added".data := by
  decide

/-- C4 counterexample: comparing the empty text with "x" yields a
`modified` record, neither an empty result nor only `added` records (the
empty string splits into the single empty paragraph, which is not
dropped). -/
theorem compare_texts_empty_counterexample :
    ¬ (compare_texts [] ("x".data) = [] ∨
       ∀ r ∈ compare_texts [] ("x".data), r.type = "added".data) := by
  decide

/-- C4 amended: paragraph splitting keeps empty and whitespace-only
paragraphs as ordinary elements; the empty string splits into the single
empty paragraph, so aligning the empty text against "x" pairs them into one
`modified` record. -/
theorem splitTwoNl_keeps_empty_paragraphs :
    splitTwoNl [] = [[]] ∧
    splitTwoNl ("a\n\n\n\nb".data) = ["a".data, [], "b".data] ∧
    splitTwoNl ("a\n\n \n\nb".data) = ["a".data, " ".data, "b".data] ∧
    compare_texts [] ("x".data) = [⟨"modified".data, [], "x".data⟩] := by
  decide

/-! ### Soundness of `find_longest_match` -/

/-- `m` is an element-wise match lying inside the rectangle
`[alo, ahi) x [blo, bhi)`. -/
def IsMatch (a b : List Str) (alo ahi blo bhi : Nat) (m : MB) : Prop :=
  alo ≤ m.bi ∧ blo ≤ m.bj ∧ m.bi + m.bs ≤ ahi ∧ m.bj + m.bs ≤ bhi ∧
  ∀ t, t < m.bs → a.getD (m.bi + t) [] = b.getD (m.bj + t) []

theorem isMatch_mk {a b : List Str} {alo ahi blo bhi bi bj bs : Nat}
    (h1 : alo ≤ bi) (h2 : blo ≤ bj) (h3 : bi + bs ≤ ahi) (h4 : bj + bs ≤ bhi)
    (h5 : ∀ t, t < bs → a.getD (bi + t) [] = b.getD (bj + t) []) :
    IsMatch a b alo ahi blo bhi ⟨bi, bj, bs⟩ :=
  ⟨h1, h2, h3, h4, h5⟩

/-- The `j2len` invariant entering row `i`: every nonzero entry `f j` is the
length of a diagonal chain of matches ending at cell `(i - 1, j)`. -/
def J2Pred (a b : List Str) (alo blo bhi : Nat) (i : Nat) (f : Nat → Nat) : Prop :=
  ∀ j, f j ≠ 0 → j < bhi ∧ blo ≤ j ∧ alo + f j ≤ i ∧ blo + f j ≤ j + 1 ∧
    ∀ t, t < f j → a.getD (i - 1 - t) [] = b.getD (j - t) []

/-- The invariant for the fresh `newj2len` being built at row `i`: chains
end at the current row. -/
def ChainCell (a b : List Str) (alo blo bhi : Nat) (i j k : Nat) : Prop :=
  j < bhi ∧ blo ≤ j ∧ alo + k ≤ i + 1 ∧ blo + k ≤ j + 1 ∧
    ∀ t, t < k → a.getD (i - t) [] = b.getD (j - t) []

theorem mem_js {a b : List Str} {blo bhi i : Nat} {j : Nat}
    (h : j ∈ (b2j b (a.getD i [])).filter
      (fun j => decide (blo ≤ j) && decide (j < bhi))) :
    blo ≤ j ∧ j < bhi ∧ j < b.length ∧ b.getD j [] = a.getD i [] := by
  rcases List.mem_filter.1 h with ⟨hb, hcond⟩
  rw [Bool.and_eq_true] at hcond
  rcases hcond with ⟨h1, h2⟩
  refine ⟨of_decide_eq_true h1, of_decide_eq_true h2, ?_, ?_⟩
  · unfold b2j at hb
    split at hb
    · exact absurd hb (List.not_mem_nil j)
    · exact List.mem_range.1 (List.mem_filter.1 hb).1
  · unfold b2j at hb
    split at hb
    · exact absurd hb (List.not_mem_nil j)
    · exact of_decide_eq_true (List.mem_filter.1 hb).2

/-- The chain value computed at a cell satisfies the row-chain property. -/
theorem cell_chain {a b : List Str} {alo blo bhi i : Nat}
    (hi1 : alo ≤ i)
    {f : Nat → Nat} (hf : J2Pred a b alo blo bhi i f)
    {j : Nat} (hj1 : blo ≤ j) (hj2 : j < bhi) (hj3 : b.getD j [] = a.getD i []) :
    ChainCell a b alo blo bhi i j ((if j = 0 then 0 else f (j - 1)) + 1) := by
  have hcell0 : ∀ t, t < 1 → a.getD (i - t) [] = b.getD (j - t) [] := by
    intro t ht
    have ht0 : t = 0 := by omega
    subst ht0
    simpa using hj3.symm
  by_cases hj0 : j = 0
  · rw [if_pos hj0]
    exact ⟨hj2, hj1, by omega, by omega, hcell0⟩
  · rw [if_neg hj0]
    by_cases hl : f (j - 1) = 0
    · rw [hl]
      exact ⟨hj2, hj1, by omega, by omega, hcell0⟩
    · rcases hf (j - 1) hl with ⟨hd1, hb1, hb2, hb3, hm⟩
      refine ⟨hj2, hj1, by omega, by omega, ?_⟩
      intro t ht
      rcases Nat.eq_zero_or_pos t with rfl | htpos
      · simpa using hj3.symm
      · have hs : t - 1 < f (j - 1) := by omega
        have hmm := hm (t - 1) hs
        have e1 : i - 1 - (t - 1) = i - t := by omega
        have e2 : j - 1 - (t - 1) = j - t := by omega
        rwa [e1, e2] at hmm

/-- The first component of `cellStep` is the conditional best update. -/
theorem cellStep_fst (f : Nat → Nat) (i : Nat) (st : MB × (Nat → Nat)) (j : Nat) :
    (cellStep f i st j).1 =
      if st.1.bs < (if j = 0 then 0 else f (j - 1)) + 1 then
        (⟨i + 1 - ((if j = 0 then 0 else f (j - 1)) + 1),
          j + 1 - ((if j = 0 then 0 else f (j - 1)) + 1),
          (if j = 0 then 0 else f (j - 1)) + 1⟩ : MB)
      else st.1 := rfl

/-- The second component of `cellStep` is the updated row map. -/
theorem cellStep_snd (f : Nat → Nat) (i : Nat) (st : MB × (Nat → Nat)) (j : Nat) :
    (cellStep f i st j).2 =
      fun j' => if j' = j then (if j = 0 then 0 else f (j - 1)) + 1 else st.2 j' := rfl

/-- One cell of the inner loop preserves the best-match and row-chain
invariants. -/
theorem cellStep_inv {a b : List Str} {alo ahi blo bhi i : Nat}
    (hi1 : alo ≤ i) (hi2 : i < ahi)
    {f : Nat → Nat} (hf : J2Pred a b alo blo bhi i f)
    {st : MB × (Nat → Nat)}
    (hbest : IsMatch a b alo ahi blo bhi st.1)
    (hnf : ∀ j', st.2 j' ≠ 0 → ChainCell a b alo blo bhi i j' (st.2 j'))
    {j : Nat} (hj1 : blo ≤ j) (hj2 : j < bhi) (hj3 : b.getD j [] = a.getD i []) :
    IsMatch a b alo ahi blo bhi (cellStep f i st j).1 ∧
    ∀ j', (cellStep f i st j).2 j' ≠ 0 →
      ChainCell a b alo blo bhi i j' ((cellStep f i st j).2 j') := by
  rcases cell_chain hi1 hf hj1 hj2 hj3 with ⟨c1, c2, c3, c4, c5⟩
  constructor
  · rw [cellStep_fst]
    by_cases hlt : st.1.bs < (if j = 0 then 0 else f (j - 1)) + 1
    · rw [if_pos hlt]
      refine isMatch_mk (by omega) (by omega) (by omega) (by omega) ?_
      intro s hs
      have e1 : i + 1 - ((if j = 0 then 0 else f (j - 1)) + 1) + s =
          i - ((if j = 0 then 0 else f (j - 1)) + 1 - 1 - s) := by omega
      have e2 : j + 1 - ((if j = 0 then 0 else f (j - 1)) + 1) + s =
          j - ((if j = 0 then 0 else f (j - 1)) + 1 - 1 - s) := by omega
      rw [e1, e2]
      exact c5 _ (by omega)
    · rw [if_neg hlt]
      exact hbest
  · intro j' hne
    simp only [cellStep_snd] at hne ⊢
    by_cases hjj : j' = j
    · rw [if_pos hjj] at hne ⊢
      subst hjj
      exact ⟨c1, c2, c3, c4, c5⟩
    · rw [if_neg hjj] at hne ⊢
      exact hnf j' hne

/-- The inner loop over one row preserves the invariants. -/
theorem row_fold_inv (a b : List Str) (alo ahi blo bhi i : Nat)
    (hi1 : alo ≤ i) (hi2 : i < ahi)
    (f : Nat → Nat) (hf : J2Pred a b alo blo bhi i f)
    (js : List Nat)
    (hjs : ∀ j ∈ js, blo ≤ j ∧ j < bhi ∧ b.getD j [] = a.getD i [])
    (st : MB × (Nat → Nat))
    (hbest : IsMatch a b alo ahi blo bhi st.1)
    (hnf : ∀ j', st.2 j' ≠ 0 → ChainCell a b alo blo bhi i j' (st.2 j')) :
    IsMatch a b alo ahi blo bhi (js.foldl (cellStep f i) st).1 ∧
    ∀ j', (js.foldl (cellStep f i) st).2 j' ≠ 0 →
      ChainCell a b alo blo bhi i j' ((js.foldl (cellStep f i) st).2 j') := by
  induction js generalizing st with
  | nil => exact ⟨hbest, hnf⟩
  | cons j js ih =>
    rcases hjs j (List.mem_cons_self j js) with ⟨h1, h2, h3⟩
    have hstep := cellStep_inv hi1 hi2 hf hbest hnf h1 h2 h3
    exact ih (fun j' hj' => hjs j' (List.mem_cons_of_mem j hj')) (cellStep f i st j) hstep.1 hstep.2

/-- `rowStep` unfolded to its inner fold. -/
theorem rowStep_eq (a b : List Str) (blo bhi : Nat) (st : MB × (Nat → Nat)) (i : Nat) :
    rowStep a b blo bhi st i =
      ((b2j b (a.getD i [])).filter
        (fun j => decide (blo ≤ j) && decide (j < bhi))).foldl
          (cellStep st.2 i) (st.1, fun _ => 0) := rfl

/-- The outer loop over the rows preserves the best-match invariant. -/
theorem rows_fold_inv {a b : List Str} {alo ahi blo bhi : Nat}
    (n : Nat) (i : Nat) (hi1 : alo ≤ i) (hin : i + n ≤ ahi)
    {st : MB × (Nat → Nat)}
    (hbest : IsMatch a b alo ahi blo bhi st.1)
    (hf : J2Pred a b alo blo bhi i st.2) :
    IsMatch a b alo ahi blo bhi
      ((List.range' i n).foldl (rowStep a b blo bhi) st).1 := by
  induction n generalizing i st with
  | zero => exact hbest
  | succ n ih =>
    rw [List.range'_succ, List.foldl_cons, rowStep_eq]
    have hrow := row_fold_inv a b alo ahi blo bhi i hi1 (by omega) st.2 hf
      ((b2j b (a.getD i [])).filter (fun j => decide (blo ≤ j) && decide (j < bhi)))
      (fun j hj => ⟨(mem_js hj).1, (mem_js hj).2.1, (mem_js hj).2.2.2⟩)
      (st.1, fun _ => 0) hbest (fun _ hj => (hj rfl).elim)
    refine ih (i + 1) (by omega) (by omega) hrow.1 ?_
    intro j hj
    rcases hrow.2 j hj with ⟨c1, c2, c3, c4, c5⟩
    refine ⟨c1, c2, by omega, c4, ?_⟩
    intro t ht
    have e : i + 1 - 1 - t = i - t := by omega
    rw [e]
    exact c5 t ht

/-- The backward extension preserves the match invariant. -/
theorem extBack_isMatch {a b : List Str} {alo ahi blo bhi : Nat}
    (fuel : Nat) {st : MB} (h : IsMatch a b alo ahi blo bhi st) :
    IsMatch a b alo ahi blo bhi (extBack a b alo blo fuel st) := by
  induction fuel generalizing st with
  | zero => exact h
  | succ fuel ih =>
    rw [extBack]
    split
    · rename_i hc
      rcases hc with ⟨hc1, hc2, hc3⟩
      rcases h with ⟨h1, h2, h3, h4, h5⟩
      refine ih (isMatch_mk (by omega) (by omega) (by omega) (by omega) ?_)
      intro t ht
      rcases Nat.eq_zero_or_pos t with rfl | htpos
      · simpa using hc3
      · have e1 : st.bi - 1 + t = st.bi + (t - 1) := by omega
        have e2 : st.bj - 1 + t = st.bj + (t - 1) := by omega
        rw [e1, e2]
        exact h5 (t - 1) (by omega)
    · exact h

/-- The forward extension preserves the match invariant. -/
theorem extFwd_isMatch {a b : List Str} {alo ahi blo bhi : Nat}
    (fuel : Nat) {st : MB} (h : IsMatch a b alo ahi blo bhi st) :
    IsMatch a b alo ahi blo bhi (extFwd a b ahi bhi fuel st) := by
  induction fuel generalizing st with
  | zero => exact h
  | succ fuel ih =>
    rw [extFwd]
    split
    · rename_i hc
      rcases hc with ⟨hc1, hc2, hc3⟩
      rcases h with ⟨h1, h2, h3, h4, h5⟩
      refine ih (isMatch_mk (by omega) (by omega) (by omega) (by omega) ?_)
      intro t ht
      rcases Nat.lt_succ_iff_lt_or_eq.1 ht with ht' | rfl
      · exact h5 t ht'
      · exact hc3
    · exact h

/-- `find_longest_match` returns an element-wise match inside its
rectangle. -/
theorem flm_isMatch (a b : List Str) (alo ahi blo bhi : Nat)
    (ha : alo ≤ ahi) (hb : blo ≤ bhi) :
    IsMatch a b alo ahi blo bhi (flm a b alo ahi blo bhi) := by
  have hmain : IsMatch a b alo ahi blo bhi (mainLoop a b alo ahi blo bhi) := by
    unfold mainLoop
    exact rows_fold_inv (ahi - alo) alo (Nat.le_refl alo) (by omega)
      (isMatch_mk (Nat.le_refl alo) (Nat.le_refl blo) (by omega) (by omega)
        (fun t ht => absurd ht (by omega)))
      (fun _ hj => (hj rfl).elim)
  unfold flm
  exact extFwd_isMatch _ (extBack_isMatch _ hmain)

/-! ### The matcher on element-disjoint sequences -/

/-- An element of a list read through `getD` within bounds is a member. -/
theorem getD_mem {l : List Str} {j : Nat} (h : j < l.length) : l.getD j [] ∈ l := by
  rw [List.getD_eq_getElem l [] h]
  exact List.getElem_mem h

/-- When no element of `a` occurs in `b`, the position index is empty. -/
theorem b2j_disjoint {a b : List Str} (hdisj : ∀ x ∈ a, x ∉ b)
    {i : Nat} (hi : i < a.length) : b2j b (a.getD i []) = [] := by
  unfold b2j
  split
  · rfl
  · refine List.filter_eq_nil_iff.mpr ?_
    intro j hj
    intro hcon
    have hjb : j < b.length := List.mem_range.1 hj
    have heq : b.getD j [] = a.getD i [] := of_decide_eq_true hcon
    exact hdisj (a.getD i []) (getD_mem hi) (heq ▸ getD_mem hjb)

/-- With no common element the main loop never updates the best match. -/
theorem mainLoop_disjoint {a b : List Str} (hdisj : ∀ x ∈ a, x ∉ b)
    {alo ahi blo bhi : Nat} (halo : alo ≤ ahi) (hahi : ahi ≤ a.length) :
    mainLoop a b alo ahi blo bhi = ⟨alo, blo, 0⟩ := by
  unfold mainLoop
  have key : ∀ n i, i + n ≤ a.length → ∀ st : MB × (Nat → Nat),
      ((List.range' i n).foldl (rowStep a b blo bhi) st).1 = st.1 := by
    intro n
    induction n with
    | zero => intro i _ st; rfl
    | succ n ih =>
      intro i hi st
      rw [List.range'_succ, List.foldl_cons]
      rw [ih (i + 1) (by omega)]
      rw [rowStep_eq, b2j_disjoint hdisj (by omega)]
      rfl
  have hrange : alo + (ahi - alo) ≤ a.length := by omega
  exact key (ahi - alo) alo hrange _

/-- `extBack` does nothing on the trivial match at the rectangle corner. -/
theorem extBack_corner (a b : List Str) (alo blo fuel : Nat) :
    extBack a b alo blo fuel ⟨alo, blo, 0⟩ = ⟨alo, blo, 0⟩ := by
  cases fuel with
  | zero => rfl
  | succ fuel =>
    rw [extBack, if_neg]
    intro hcon
    have h := hcon.1
    simp at h

/-- `extFwd` does nothing at the corner when `a` and `b` share no element. -/
theorem extFwd_corner {a b : List Str} (hdisj : ∀ x ∈ a, x ∉ b)
    {alo ahi blo bhi : Nat} (hahi : ahi ≤ a.length) (hbhi : bhi ≤ b.length)
    (fuel : Nat) :
    extFwd a b ahi bhi fuel ⟨alo, blo, 0⟩ = ⟨alo, blo, 0⟩ := by
  cases fuel with
  | zero => rfl
  | succ fuel =>
    rw [extFwd, if_neg]
    intro hcon
    have h1 : alo < ahi := by simpa using hcon.1
    have h2 : blo < bhi := by simpa using hcon.2.1
    have h3 : a.getD alo [] = b.getD blo [] := by simpa using hcon.2.2
    exact hdisj (a.getD alo []) (getD_mem (by omega)) (h3 ▸ getD_mem (by omega))

/-- `find_longest_match` finds nothing between element-disjoint sequences. -/
theorem flm_disjoint {a b : List Str} (hdisj : ∀ x ∈ a, x ∉ b)
    {alo ahi blo bhi : Nat} (halo : alo ≤ ahi) (hahi : ahi ≤ a.length)
    (hbhi : bhi ≤ b.length) :
    flm a b alo ahi blo bhi = ⟨alo, blo, 0⟩ := by
  unfold flm
  rw [mainLoop_disjoint hdisj halo hahi]
  simp only [extBack_corner]
  exact extFwd_corner hdisj hahi hbhi _

/-- The opcodes of two nonempty element-disjoint sequences form a single
`replace` span covering everything. -/
theorem getOpcodes_disjoint {a b : List Str} (ha : a ≠ []) (hb : b ≠ [])
    (hdisj : ∀ x ∈ a, x ∉ b) :
    getOpcodes a b = [⟨.replace, 0, a.length, 0, b.length⟩] := by
  have hfl : flm a b 0 a.length 0 b.length = ⟨0, 0, 0⟩ :=
    flm_disjoint hdisj (Nat.zero_le _) (Nat.le_refl _) (Nat.le_refl _)
  have hblocks : mblocksF a b (a.length + b.length + 1) (0, a.length, 0, b.length) = [] := by
    rw [mblocksF, hfl]
    rfl
  unfold getOpcodes matchingBlocks
  rw [hblocks]
  have hla : 0 < a.length := List.length_pos.2 ha
  have hlb : 0 < b.length := List.length_pos.2 hb
  show opcodesGo 0 0 ((if (0 : Nat) = 0 then [] else [((0 : Nat), (0 : Nat), (0 : Nat))])
      ++ [(a.length, b.length, 0)]) = _
  rw [if_pos rfl, List.nil_append, opcodesGo, if_pos ⟨hla, hlb⟩, if_pos rfl]
  rfl

/-! ### Small facts about the splitters -/

theorem consHead_ne_nil (c : Char) (ps : List Str) : consHead c ps ≠ [] := by
  cases ps <;> simp [consHead]

theorem sentGo_ne_nil (sk pp : Bool) (l : Str) : sentGo sk pp l ≠ [] := by
  induction l generalizing sk pp with
  | nil => simp [sentGo]
  | cons c rest ih =>
    rw [sentGo]
    split
    · exact ih _ _
    · split
      · simp
      · exact consHead_ne_nil _ _

theorem sentSplit_ne_nil (s : Str) : sentSplit s ≠ [] := sentGo_ne_nil false false s

theorem splitTwoNl_ne_nil (l : Str) : splitTwoNl l ≠ [] := by
  induction l using splitTwoNl.induct with
  | case1 => simp [splitTwoNl]
  | case2 c => simp [splitTwoNl]
  | case3 c1 c2 rest h ih => rw [splitTwoNl]; rw [if_pos h]; simp
  | case4 c1 c2 rest h ih =>
    rw [splitTwoNl, if_neg h]
    exact consHead_ne_nil _ _

theorem pySlice_one (x : Str) : pySlice [x] 0 1 = [x] := rfl

theorem pySlice_full (l : List Str) : pySlice l 0 l.length = l := by
  simp [pySlice]

theorem intercalate_singleton (sep : Str) (x : Str) : List.intercalate sep [x] = x := by
  simp [List.intercalate]

/-- C2 amended (general form): when both sanitised inputs are single
paragraphs sharing no sentence, the engine emits exactly one `modified`
record whose contents are the space-joins of the two sentence lists. -/
theorem compare_texts_total_replacement (A B : Str)
    (hA : splitTwoNl (sanitize A) = [sanitize A])
    (hB : splitTwoNl (sanitize B) = [sanitize B])
    (hS : ∀ s ∈ sentSplit (sanitize A), s ∉ sentSplit (sanitize B)) :
    compare_texts A B =
      [⟨"modified".data, List.intercalate [' '] (sentSplit (sanitize A)),
        List.intercalate [' '] (sentSplit (sanitize B))⟩] := by
  have hone : sanitize A ∉ [sanitize B] := by
    intro hmem
    have heq : sanitize A = sanitize B := by simpa using hmem
    rcases List.exists_mem_of_ne_nil _ (sentSplit_ne_nil (sanitize A)) with ⟨s, hs⟩
    exact hS s hs (heq ▸ hs)
  have hdisj : ∀ x ∈ [sanitize A], x ∉ [sanitize B] := by
    intro x hx
    have hxa : x = sanitize A := by simpa using hx
    subst hxa
    exact hone
  have hops : getOpcodes [sanitize A] [sanitize B] = [⟨.replace, 0, 1, 0, 1⟩] := by
    rw [getOpcodes_disjoint (List.cons_ne_nil _ _) (List.cons_ne_nil _ _) hdisj]
    rfl
  show (getOpcodes (splitTwoNl (sanitize A)) (splitTwoNl (sanitize B))).flatMap
      (emitParaOp (splitTwoNl (sanitize A)) (splitTwoNl (sanitize B))) = _
  rw [hA, hB, hops, List.flatMap_cons, List.flatMap_nil, List.append_nil]
  show (getOpcodes (sentSplit (List.intercalate nl2 (pySlice [sanitize A] 0 1)))
      (sentSplit (List.intercalate nl2 (pySlice [sanitize B] 0 1)))).flatMap
      (emitSentOp (sentSplit (List.intercalate nl2 (pySlice [sanitize A] 0 1)))
        (sentSplit (List.intercalate nl2 (pySlice [sanitize B] 0 1)))) = _
  rw [pySlice_one, pySlice_one, intercalate_singleton, intercalate_singleton]
  rw [getOpcodes_disjoint (sentSplit_ne_nil _) (sentSplit_ne_nil _) hS]
  rw [List.flatMap_cons, List.flatMap_nil, List.append_nil]
  show [(⟨"modified".data,
      List.intercalate [' ']
        (pySlice (sentSplit (sanitize A)) 0 (sentSplit (sanitize A)).length),
      List.intercalate [' ']
        (pySlice (sentSplit (sanitize B)) 0 (sentSplit (sanitize B)).length)⟩ :
      DiffRecord)] = _
  rw [pySlice_full, pySlice_full]

/-- Witness for the amended C2 at the concrete pair "cat" / "dog". -/
theorem compare_texts_total_replacement_witness :
    compare_texts ("cat".data) ("dog".data) =
      [⟨"modified".data, "cat".data, "dog".data⟩] :=
  (compare_texts_total_replacement ("cat".data) ("dog".data)
    (by decide) (by decide) (by decide)).trans (by decide)

/-! ### Ordered correctness of the collected matching blocks -/

/-- An ordered list of element-wise matching blocks inside
`[., ahi) x [., bhi)`, each starting no earlier than `(i0, j0)` and no
earlier than the end of the previous block. -/
def BlocksOK (a b : List Str) (ahi bhi : Nat) : Nat → Nat → List (Nat × Nat × Nat) → Prop
  | _, _, [] => True
  | i0, j0, (bi, bj, k) :: rest =>
    i0 ≤ bi ∧ j0 ≤ bj ∧ bi + k ≤ ahi ∧ bj + k ≤ bhi ∧ 1 ≤ k ∧
    (∀ t, t < k → a.getD (bi + t) [] = b.getD (bj + t) []) ∧
    BlocksOK a b ahi bhi (bi + k) (bj + k) rest

/-- Weakening the starting bound of a block list. -/
theorem BlocksOK_mono {a b : List Str} {ahi bhi i0 j0 i0' j0' : Nat}
    {bs : List (Nat × Nat × Nat)} (h : BlocksOK a b ahi bhi i0 j0 bs)
    (h1 : i0' ≤ i0) (h2 : j0' ≤ j0) : BlocksOK a b ahi bhi i0' j0' bs := by
  cases bs with
  | nil => trivial
  | cons x rest =>
    rcases x with ⟨bi, bj, k⟩
    rcases h with ⟨a1, a2, a3, a4, a5, a6, a7⟩
    exact ⟨by omega, by omega, a3, a4, a5, a6, a7⟩

/-- Enlarging the rectangle of a block list. -/
theorem BlocksOK_weaken {a b : List Str} {ahi bhi ahi' bhi' i0 j0 : Nat}
    {bs : List (Nat × Nat × Nat)} (h : BlocksOK a b ahi bhi i0 j0 bs)
    (h1 : ahi ≤ ahi') (h2 : bhi ≤ bhi') : BlocksOK a b ahi' bhi' i0 j0 bs := by
  induction bs generalizing i0 j0 with
  | nil => trivial
  | cons x rest ih =>
    rcases x with ⟨bi, bj, k⟩
    rcases h with ⟨a1, a2, a3, a4, a5, a6, a7⟩
    exact ⟨a1, a2, by omega, by omega, a5, a6, ih a7⟩

/-- Concatenating a block list of a front sub-rectangle with a list starting
at the junction. -/
theorem BlocksOK_append {a b : List Str} {ahi bhi : Nat}
    (xs : List (Nat × Nat × Nat)) :
    ∀ i0 j0 mi mj (rest : List (Nat × Nat × Nat)),
      BlocksOK a b mi mj i0 j0 xs → mi ≤ ahi → mj ≤ bhi → i0 ≤ mi → j0 ≤ mj →
      BlocksOK a b ahi bhi mi mj rest →
      BlocksOK a b ahi bhi i0 j0 (xs ++ rest) := by
  induction xs with
  | nil =>
    intro i0 j0 mi mj rest hxs h1 h2 h3 h4 hrest
    exact BlocksOK_mono hrest h3 h4
  | cons x xs ih =>
    intro i0 j0 mi mj rest hxs h1 h2 h3 h4 hrest
    rcases x with ⟨bi, bj, k⟩
    rcases hxs with ⟨a1, a2, a3, a4, a5, a6, a7⟩
    exact ⟨a1, a2, by omega, by omega, a5, a6,
      ih (bi + k) (bj + k) mi mj rest a7 h1 h2 (by omega) (by omega) hrest⟩

/-- The recursively collected matching blocks are ordered element-wise
matches of the rectangle. -/
theorem mblocksF_ok (a b : List Str) :
    ∀ fuel alo ahi blo bhi, (ahi - alo) + (bhi - blo) < fuel →
      alo ≤ ahi → blo ≤ bhi →
      BlocksOK a b ahi bhi alo blo (mblocksF a b fuel (alo, ahi, blo, bhi)) := by
  intro fuel
  induction fuel with
  | zero => intro alo ahi blo bhi h; omega
  | succ fuel ih =>
    intro alo ahi blo bhi hfuel halo hblo
    rw [mblocksF]
    rcases flm_isMatch a b alo ahi blo bhi halo hblo with ⟨m1, m2, m3, m4, m5⟩
    set m := flm a b alo ahi blo bhi with hm
    by_cases hbs : m.bs = 0
    · rw [if_pos hbs]
      trivial
    · rw [if_neg hbs]
      have hmid : BlocksOK a b ahi bhi (m.bi + m.bs) (m.bj + m.bs)
          (if m.bi + m.bs < ahi ∧ m.bj + m.bs < bhi then
            mblocksF a b fuel (m.bi + m.bs, ahi, m.bj + m.bs, bhi)
          else []) := by
        by_cases hback : m.bi + m.bs < ahi ∧ m.bj + m.bs < bhi
        · rw [if_pos hback]
          exact ih _ _ _ _ (by omega) (by omega) (by omega)
        · rw [if_neg hback]
          trivial
      have hblk : BlocksOK a b ahi bhi m.bi m.bj
          ((m.bi, m.bj, m.bs) ::
            (if m.bi + m.bs < ahi ∧ m.bj + m.bs < bhi then
              mblocksF a b fuel (m.bi + m.bs, ahi, m.bj + m.bs, bhi)
            else [])) :=
        ⟨Nat.le_refl _, Nat.le_refl _, m3, m4, by omega, m5, hmid⟩
      by_cases hfront : alo < m.bi ∧ blo < m.bj
      · rw [if_pos hfront]
        refine BlocksOK_append _ alo blo m.bi m.bj _ ?_ (by omega) (by omega) m1 m2 hblk
        exact BlocksOK_weaken (ih _ _ _ _ (by omega) (by omega) (by omega))
          (by omega) (by omega)
      · rw [if_neg hfront]
        rw [List.nil_append]
        exact BlocksOK_mono hblk m1 m2

/-- The merged block list: ordered nonempty element-wise matching blocks
followed by the `(la, lb, 0)` sentinel. -/
inductive BlocksSent (a b : List Str) (la lb : Nat) : Nat → Nat → List (Nat × Nat × Nat) → Prop
  | sent : ∀ i0 j0, i0 ≤ la → j0 ≤ lb → BlocksSent a b la lb i0 j0 [(la, lb, 0)]
  | block : ∀ i0 j0 bi bj k rest, i0 ≤ bi → j0 ≤ bj → bi + k ≤ la → bj + k ≤ lb →
      1 ≤ k → (∀ t, t < k → a.getD (bi + t) [] = b.getD (bj + t) []) →
      BlocksSent a b la lb (bi + k) (bj + k) rest →
      BlocksSent a b la lb i0 j0 ((bi, bj, k) :: rest)

/-- Weakening the starting bound of a merged block list. -/
theorem BlocksSent_mono {a b : List Str} {la lb i0 j0 i0' j0' : Nat}
    {bs : List (Nat × Nat × Nat)} (h : BlocksSent a b la lb i0 j0 bs)
    (h1 : i0' ≤ i0) (h2 : j0' ≤ j0) : BlocksSent a b la lb i0' j0' bs := by
  cases h with
  | sent _ _ s1 s2 => exact BlocksSent.sent _ _ (by omega) (by omega)
  | block _ _ bi bj k rest c1 c2 c3 c4 c5 c6 c7 =>
    exact BlocksSent.block _ _ bi bj k rest (by omega) (by omega) c3 c4 c5 c6 c7

/-- The merging pass turns an ordered block list plus a pending accumulator
block into a merged sentinel-terminated list. -/
theorem mergeGo_sent_acc (a b : List Str) (la lb : Nat)
    (blocks : List (Nat × Nat × Nat)) :
    ∀ i1 j1 k1, 1 ≤ k1 → i1 + k1 ≤ la → j1 + k1 ≤ lb →
      (∀ t, t < k1 → a.getD (i1 + t) [] = b.getD (j1 + t) []) →
      BlocksOK a b la lb (i1 + k1) (j1 + k1) blocks →
      BlocksSent a b la lb i1 j1 (mergeGo la lb (i1, j1, k1) blocks) := by
  induction blocks with
  | nil =>
    intro i1 j1 k1 hk h1 h2 hm hok
    rw [mergeGo, if_neg (by omega), List.singleton_append]
    exact BlocksSent.block i1 j1 i1 j1 k1 _ (Nat.le_refl _) (Nat.le_refl _) h1 h2 hk hm
      (BlocksSent.sent _ _ h1 h2)
  | cons x blocks ih =>
    intro i1 j1 k1 hk h1 h2 hm hok
    rcases x with ⟨i2, j2, k2⟩
    rcases hok with ⟨b1, b2, b3, b4, b5, b6, b7⟩
    rw [mergeGo]
    by_cases hadj : i1 + k1 = i2 ∧ j1 + k1 = j2
    · rw [if_pos hadj]
      refine ih i1 j1 (k1 + k2) (by omega) (by omega) (by omega) ?_ ?_
      · intro t ht
        by_cases htk : t < k1
        · exact hm t htk
        · have e1 : i1 + t = i2 + (t - k1) := by omega
          have e2 : j1 + t = j2 + (t - k1) := by omega
          rw [e1, e2]
          exact b6 (t - k1) (by omega)
      · have e1 : i1 + (k1 + k2) = i2 + k2 := by omega
        have e2 : j1 + (k1 + k2) = j2 + k2 := by omega
        rw [e1, e2]
        exact b7
    · rw [if_neg hadj, if_neg (by omega), List.singleton_append]
      refine BlocksSent.block i1 j1 i1 j1 k1 _ (Nat.le_refl _) (Nat.le_refl _) h1 h2 hk hm ?_
      exact BlocksSent_mono (ih i2 j2 k2 b5 b3 b4 b6 b7) b1 b2

/-- `get_matching_blocks` produces ordered matching blocks with the
sentinel. -/
theorem matchingBlocks_sent (a b : List Str) :
    BlocksSent a b a.length b.length 0 0 (matchingBlocks a b) := by
  unfold matchingBlocks
  have hok := mblocksF_ok a b (a.length + b.length + 1) 0 a.length 0 b.length
    (by omega) (by omega) (by omega)
  cases hbl : mblocksF a b (a.length + b.length + 1) (0, a.length, 0, b.length) with
  | nil =>
    rw [mergeGo, if_pos rfl, List.nil_append]
    exact BlocksSent.sent 0 0 (by omega) (by omega)
  | cons x blocks =>
    rcases x with ⟨i2, j2, k2⟩
    rw [hbl] at hok
    rcases hok with ⟨b1, b2, b3, b4, b5, b6, b7⟩
    rw [mergeGo]
    by_cases hadj : 0 + 0 = i2 ∧ 0 + 0 = j2
    · rw [if_pos hadj]
      have hi2 : i2 = 0 := by omega
      have hj2 : j2 = 0 := by omega
      subst hi2
      subst hj2
      refine BlocksSent_mono
        (mergeGo_sent_acc a b a.length b.length blocks 0 0 (0 + k2)
          (by omega) (by omega) (by omega) ?_ ?_) (by omega) (by omega)
      · exact fun t ht => b6 t (by omega)
      · have g1 : (0 : Nat) + (0 + k2) = 0 + k2 := by omega
        rw [g1]
        exact b7
    · rw [if_neg hadj, if_pos rfl, List.nil_append]
      exact BlocksSent_mono (mergeGo_sent_acc a b a.length b.length blocks i2 j2 k2
        b5 b3 b4 b6 b7) b1 b2

/-! ### The opcode chain -/

/-- The per-tag shape facts of one opcode: `equal` spans are element-wise
identical and nonempty, `replace` spans are nonempty on both sides,
`delete`/`insert` spans are nonempty on exactly one side. -/
def TagOK (a b : List Str) (op : Opcode) : Prop :=
  match op.tag with
  | .equal => op.i2 - op.i1 = op.j2 - op.j1 ∧ op.i1 < op.i2 ∧
      ∀ t, t < op.i2 - op.i1 → a.getD (op.i1 + t) [] = b.getD (op.j1 + t) []
  | .replace => op.i1 < op.i2 ∧ op.j1 < op.j2
  | .delete => op.i1 < op.i2 ∧ op.j1 = op.j2
  | .insert => op.i1 = op.i2 ∧ op.j1 < op.j2

/-- Opcode chain from `(i, j)`: consecutive spans are contiguous (each
starts where the previous one ended), stay inside `[0, la] x [0, lb]`, end
exactly at `(la, lb)`, and each opcode satisfies its tag facts.  This is the
coverage property: every index of either sequence lies in exactly one
opcode span. -/
inductive OpChain (a b : List Str) (la lb : Nat) : Nat → Nat → List Opcode → Prop
  | nil : OpChain a b la lb la lb []
  | op : ∀ i j o rest, o.i1 = i → o.j1 = j → o.i2 ≤ la → o.j2 ≤ lb →
      i ≤ o.i2 → j ≤ o.j2 → TagOK a b o →
      OpChain a b la lb o.i2 o.j2 rest → OpChain a b la lb i j (o :: rest)

/-- Specialised chain constructor with the opcode fields spelled out. -/
theorem opChain_cons {a b : List Str} {la lb : Nat} (tg : DTag) (i1 i2 j1 j2 : Nat)
    (rest : List Opcode) (h3 : i2 ≤ la) (h4 : j2 ≤ lb) (h5 : i1 ≤ i2) (h6 : j1 ≤ j2)
    (htag : TagOK a b ⟨tg, i1, i2, j1, j2⟩)
    (hrest : OpChain a b la lb i2 j2 rest) :
    OpChain a b la lb i1 j1 ((⟨tg, i1, i2, j1, j2⟩ : Opcode) :: rest) :=
  OpChain.op i1 j1 ⟨tg, i1, i2, j1, j2⟩ rest rfl rfl h3 h4 h5 h6 htag hrest

/-- The opcode-generation loop turns a merged block list into an opcode
chain. -/
theorem opcodesGo_chain {a b : List Str} {la lb : Nat}
    {i j : Nat} {blocks : List (Nat × Nat × Nat)}
    (h : BlocksSent a b la lb i j blocks) :
    OpChain a b la lb i j (opcodesGo i j blocks) := by
  induction h with
  | sent i0 j0 s1 s2 =>
    rw [opcodesGo]
    rw [if_pos rfl, List.append_nil]
    by_cases h1 : i0 < la ∧ j0 < lb
    · rw [if_pos h1, List.singleton_append]
      refine opChain_cons .replace i0 la j0 lb [] (Nat.le_refl _) (Nat.le_refl _)
        (by omega) (by omega) ?_ OpChain.nil
      exact ⟨h1.1, h1.2⟩
    · rw [if_neg h1]
      by_cases h2 : i0 < la
      · have hj : j0 = lb := by omega
        rw [if_pos h2, List.singleton_append]
        refine opChain_cons .delete i0 la j0 lb [] (Nat.le_refl _) (Nat.le_refl _)
          (by omega) (by omega) ⟨h2, hj⟩ OpChain.nil
      · by_cases h3 : j0 < lb
        · have hi : i0 = la := by omega
          rw [if_neg h2, if_pos h3, List.singleton_append]
          refine opChain_cons .insert i0 la j0 lb [] (Nat.le_refl _) (Nat.le_refl _)
            (by omega) (by omega) ⟨hi, h3⟩ ?_
          exact OpChain.nil
        · have hi : i0 = la := by omega
          have hj : j0 = lb := by omega
          rw [if_neg h2, if_neg h3, List.nil_append, hi, hj]
          exact OpChain.nil
  | block i0 j0 bi bj k rest c1 c2 c3 c4 c5 c6 _ ih =>
    rw [opcodesGo]
    rw [if_neg (by omega : ¬ k = 0), List.append_assoc, List.singleton_append]
    have heq : OpChain a b la lb bi bj
        ((⟨.equal, bi, bi + k, bj, bj + k⟩ : Opcode) :: opcodesGo (bi + k) (bj + k) rest) := by
      refine opChain_cons .equal bi (bi + k) bj (bj + k) _ c3 c4 (by omega) (by omega)
        ?_ ih
      refine ⟨?_, ?_, ?_⟩
      · show (bi + k) - bi = (bj + k) - bj
        omega
      · show bi < bi + k
        omega
      · intro t ht
        have ht' : t < (bi + k) - bi := ht
        show a.getD (bi + t) [] = b.getD (bj + t) []
        exact c6 t (by omega)
    by_cases h1 : i0 < bi ∧ j0 < bj
    · rw [if_pos h1, List.singleton_append]
      exact opChain_cons .replace i0 bi j0 bj _ (by omega) (by omega) (by omega)
        (by omega) ⟨h1.1, h1.2⟩ heq
    · rw [if_neg h1]
      by_cases h2 : i0 < bi
      · have hj : j0 = bj := by omega
        rw [if_pos h2, List.singleton_append]
        exact opChain_cons .delete i0 bi j0 bj _ (by omega) (by omega) (by omega)
          (by omega) ⟨h2, hj⟩ heq
      · by_cases h3 : j0 < bj
        · have hi : i0 = bi := by omega
          rw [if_neg h2, if_pos h3, List.singleton_append]
          exact opChain_cons .insert i0 bi j0 bj _ (by omega) (by omega) (by omega)
            (by omega) ⟨hi, h3⟩ heq
        · have hi : i0 = bi := by omega
          have hj : j0 = bj := by omega
          rw [if_neg h2, if_neg h3, List.nil_append, hi, hj]
          exact heq

/-- The opcodes of `SequenceMatcher.get_opcodes` form a chain from `(0, 0)`
to the two lengths. -/
theorem getOpcodes_chain (a b : List Str) :
    OpChain a b a.length b.length 0 0 (getOpcodes a b) :=
  opcodesGo_chain (matchingBlocks_sent a b)

/-- Every opcode of a chain satisfies its tag facts and bounds. -/
theorem OpChain_mem {a b : List Str} {la lb i j : Nat} {ops : List Opcode}
    (h : OpChain a b la lb i j ops) :
    ∀ o ∈ ops, TagOK a b o ∧ o.i1 ≤ o.i2 ∧ o.j1 ≤ o.j2 ∧ o.i2 ≤ la ∧ o.j2 ≤ lb := by
  induction h with
  | nil => intro o ho; exact absurd ho (List.not_mem_nil o)
  | op i j o rest e1 e2 e3 e4 e5 e6 htag hrest ih =>
    intro o' ho'
    rcases List.mem_cons.1 ho' with rfl | ho'
    · exact ⟨htag, by omega, by omega, e3, e4⟩
    · exact ih o' ho'

/-! ### C8: modified records are exactly one sentence-level refinement -/

/-- C8: every `modified` record of `compare_texts` arises from exactly one
sentence-level `replace` opcode inside a paragraph-level `replace` span: its
`old_content`/`new_content` are flat strings, the space-joins of one
contiguous nonempty sentence span of each side, and are never re-split or
re-diffed (there is no deeper level in the pipeline). -/
theorem modified_records_once_refined :
    ∀ t1 t2 : Str, ∀ r ∈ compare_texts t1 t2, r.type = "modified".data →
      ∃ i1 i2 j1 j2 si1 si2 sj1 sj2,
        (⟨.replace, i1, i2, j1, j2⟩ : Opcode) ∈
            getOpcodes (splitTwoNl (sanitize t1)) (splitTwoNl (sanitize t2)) ∧
        (⟨.replace, si1, si2, sj1, sj2⟩ : Opcode) ∈
            getOpcodes
              (sentSplit (List.intercalate nl2
                (pySlice (splitTwoNl (sanitize t1)) i1 i2)))
              (sentSplit (List.intercalate nl2
                (pySlice (splitTwoNl (sanitize t2)) j1 j2))) ∧
        si1 < si2 ∧ sj1 < sj2 ∧
        r.old_content = List.intercalate [' ']
          (pySlice (sentSplit (List.intercalate nl2
            (pySlice (splitTwoNl (sanitize t1)) i1 i2))) si1 si2) ∧
        r.new_content = List.intercalate [' ']
          (pySlice (sentSplit (List.intercalate nl2
            (pySlice (splitTwoNl (sanitize t2)) j1 j2))) sj1 sj2) := by
  intro t1 t2 r hr hty
  have hr' : r ∈ (getOpcodes (splitTwoNl (sanitize t1))
      (splitTwoNl (sanitize t2))).flatMap
      (emitParaOp (splitTwoNl (sanitize t1)) (splitTwoNl (sanitize t2))) := hr
  rcases List.mem_flatMap.1 hr' with ⟨op, hop, hrop⟩
  rcases op with ⟨tag, i1, i2, j1, j2⟩
  cases tag with
  | equal =>
    exfalso
    simp only [emitParaOp] at hrop
    rcases List.mem_map.1 hrop with ⟨idx, _, heq⟩
    rw [← heq] at hty
    have hty' : ("equal".data : Str) = "modified".data := hty
    exact absurd hty' (by decide)
  | delete =>
    exfalso
    simp only [emitParaOp] at hrop
    rcases List.mem_map.1 hrop with ⟨idx, _, heq⟩
    rw [← heq] at hty
    have hty' : ("deleted".data : Str) = "modified".data := hty
    exact absurd hty' (by decide)
  | insert =>
    exfalso
    simp only [emitParaOp] at hrop
    rcases List.mem_map.1 hrop with ⟨idx, _, heq⟩
    rw [← heq] at hty
    have hty' : ("added".data : Str) = "modified".data := hty
    exact absurd hty' (by decide)
  | replace =>
    simp only [emitParaOp] at hrop
    rcases List.mem_flatMap.1 hrop with ⟨sop, hsop, hrsop⟩
    rcases sop with ⟨stag, si1, si2, sj1, sj2⟩
    cases stag with
    | equal =>
      exfalso
      simp only [emitSentOp] at hrsop
      rcases List.mem_map.1 hrsop with ⟨idx, _, heq⟩
      rw [← heq] at hty
      have hty' : ("equal".data : Str) = "modified".data := hty
      exact absurd hty' (by decide)
    | delete =>
      exfalso
      simp only [emitSentOp] at hrsop
      have heq := List.mem_singleton.1 hrsop
      rw [heq] at hty
      have hty' : ("deleted".data : Str) = "modified".data := hty
      exact absurd hty' (by decide)
    | insert =>
      exfalso
      simp only [emitSentOp] at hrsop
      have heq := List.mem_singleton.1 hrsop
      rw [heq] at hty
      have hty' : ("added".data : Str) = "modified".data := hty
      exact absurd hty' (by decide)
    | replace =>
      simp only [emitSentOp] at hrsop
      have heq := List.mem_singleton.1 hrsop
      have hfacts := (OpChain_mem (getOpcodes_chain
        (sentSplit (List.intercalate nl2 (pySlice (splitTwoNl (sanitize t1)) i1 i2)))
        (sentSplit (List.intercalate nl2 (pySlice (splitTwoNl (sanitize t2)) j1 j2))))
        _ hsop).1
      have hlt : si1 < si2 ∧ sj1 < sj2 := hfacts
      refine ⟨i1, i2, j1, j2, si1, si2, sj1, sj2, hop, hsop, hlt.1, hlt.2, ?_, ?_⟩
      · rw [heq]
      · rw [heq]

/-- Witness for C8 at the concrete pair "cat" / "dog", whose single record
is `modified`. -/
theorem modified_records_once_refined_witness :
    ∃ i1 i2 j1 j2 si1 si2 sj1 sj2,
      (⟨.replace, i1, i2, j1, j2⟩ : Opcode) ∈
          getOpcodes (splitTwoNl (sanitize ("cat".data)))
            (splitTwoNl (sanitize ("dog".data))) ∧
      (⟨.replace, si1, si2, sj1, sj2⟩ : Opcode) ∈
          getOpcodes
            (sentSplit (List.intercalate nl2
              (pySlice (splitTwoNl (sanitize ("cat".data))) i1 i2)))
            (sentSplit (List.intercalate nl2
              (pySlice (splitTwoNl (sanitize ("dog".data))) j1 j2))) ∧
      si1 < si2 ∧ sj1 < sj2 ∧
      (⟨"modified".data, "cat".data, "dog".data⟩ : DiffRecord).old_content =
        List.intercalate [' ']
          (pySlice (sentSplit (List.intercalate nl2
            (pySlice (splitTwoNl (sanitize ("cat".data))) i1 i2))) si1 si2) ∧
      (⟨"modified".data, "cat".data, "dog".data⟩ : DiffRecord).new_content =
        List.intercalate [' ']
          (pySlice (sentSplit (List.intercalate nl2
            (pySlice (splitTwoNl (sanitize ("dog".data))) j1 j2))) sj1 sj2) :=
  modified_records_once_refined ("cat".data) ("dog".data)
    ⟨"modified".data, "cat".data, "dog".data⟩ (by decide) (by decide)

/-! ### C5: record contents never contain the sanitised characters -/

/-- `c` is none of the four characters rewritten by
`sanitize_for_display`. -/
def okChar (c : Char) : Prop := c ≠ '<' ∧ c ≠ '>' ∧ c ≠ '{' ∧ c ≠ '}'

instance (c : Char) : Decidable (okChar c) := by
  unfold okChar
  infer_instance

/-- Every character of `s` is clean. -/
def CharsOK (s : Str) : Prop := ∀ c ∈ s, okChar c

instance (s : Str) : Decidable (CharsOK s) := by
  unfold CharsOK
  infer_instance

/-- The character-wise simultaneous form of the four `str.replace` calls. -/
def sanChar (c : Char) : Str :=
  if c = '<' then "&lt;".data
  else if c = '>' then "&gt;".data
  else if c = '{' then "&#123;".data
  else if c = '}' then "&#125;".data
  else [c]

theorem replaceChar_cons (p : Char) (r : Str) (c : Char) (s : Str) :
    replaceChar p r (c :: s) = (if c = p then r else [c]) ++ replaceChar p r s := rfl

theorem replaceChar_append (p : Char) (r : Str) (xs ys : Str) :
    replaceChar p r (xs ++ ys) = replaceChar p r xs ++ replaceChar p r ys := by
  unfold replaceChar
  exact List.flatMap_append xs ys _

theorem sanitize_cons (c : Char) (s : Str) :
    sanitize (c :: s) = sanitize [c] ++ sanitize s := by
  unfold sanitize
  rw [show ((c :: s : Str)) = [c] ++ s from rfl]
  rw [replaceChar_append, replaceChar_append, replaceChar_append, replaceChar_append]

/-- `sanitize` is the simultaneous character-wise rewriting: the
replacement strings of earlier passes are untouched by later passes. -/
theorem sanitize_eq_flatMap (s : Str) : sanitize s = s.flatMap sanChar := by
  induction s with
  | nil => rfl
  | cons c s ih =>
    rw [sanitize_cons, List.flatMap_cons, ih]
    congr 1
    by_cases h1 : c = '<'
    · subst h1; rfl
    · by_cases h2 : c = '>'
      · subst h2; rfl
      · by_cases h3 : c = '{'
        · subst h3; rfl
        · by_cases h4 : c = '}'
          · subst h4; rfl
          · show sanitize [c] = sanChar c
            unfold sanitize sanChar
            rw [if_neg h1, if_neg h2, if_neg h3, if_neg h4]
            unfold replaceChar
            simp [h1, h2, h3, h4]

theorem mem_replaceChar {p : Char} {r s : Str} {c : Char}
    (h : c ∈ replaceChar p r s) : c ∈ r ∨ (c ∈ s ∧ c ≠ p) := by
  unfold replaceChar at h
  rcases List.mem_flatMap.1 h with ⟨x, hx, hcx⟩
  by_cases hxp : x = p
  · rw [if_pos hxp] at hcx
    exact Or.inl hcx
  · rw [if_neg hxp] at hcx
    have hcx' : c = x := by simpa using hcx
    subst hcx'
    exact Or.inr ⟨hx, hxp⟩

theorem repl_lt_ok : ∀ c ∈ ("&lt;".data : Str), okChar c := by decide

theorem repl_gt_ok : ∀ c ∈ ("&gt;".data : Str), okChar c := by decide

theorem repl_ob_ok : ∀ c ∈ ("&#123;".data : Str), okChar c := by decide

theorem repl_cb_ok : ∀ c ∈ ("&#125;".data : Str), okChar c := by decide

/-- The sanitised text contains none of the four markup characters. -/
theorem sanitize_charsOK (s : Str) : CharsOK (sanitize s) := by
  intro c hc
  unfold sanitize at hc
  rcases mem_replaceChar hc with h | ⟨hc, n4⟩
  · exact repl_cb_ok c h
  rcases mem_replaceChar hc with h | ⟨hc, n3⟩
  · exact repl_ob_ok c h
  rcases mem_replaceChar hc with h | ⟨hc, n2⟩
  · exact repl_gt_ok c h
  rcases mem_replaceChar hc with h | ⟨hc, n1⟩
  · exact repl_lt_ok c h
  exact ⟨n1, n2, n3, n4⟩

theorem mem_consHead {c : Char} {L : List Str} {p : Str} (h : p ∈ consHead c L) :
    (L = [] ∧ p = [c]) ∨ ∃ h' t, L = h' :: t ∧ (p = c :: h' ∨ p ∈ t) := by
  cases L with
  | nil =>
    left
    exact ⟨rfl, by simpa [consHead] using h⟩
  | cons h' t =>
    right
    refine ⟨h', t, rfl, ?_⟩
    simpa [consHead] using h

/-- Characters of the paragraph pieces come from the original text. -/
theorem splitTwoNl_chars :
    ∀ s : Str, ∀ p ∈ splitTwoNl s, ∀ c ∈ p, c ∈ s := by
  intro s
  induction s using splitTwoNl.induct with
  | case1 =>
    intro p hp c hc
    simp [splitTwoNl] at hp
    subst hp
    exact absurd hc (List.not_mem_nil c)
  | case2 c1 =>
    intro p hp c hc
    simp [splitTwoNl] at hp
    subst hp
    simpa using hc
  | case3 c1 c2 rest hcond ih =>
    intro p hp c hc
    rw [splitTwoNl, if_pos hcond] at hp
    rcases List.mem_cons.1 hp with rfl | hp
    · exact absurd hc (List.not_mem_nil c)
    · have := ih p hp c hc
      simp [List.mem_cons]
      tauto
  | case4 c1 c2 rest hcond ih =>
    intro p hp c hc
    rw [splitTwoNl, if_neg hcond] at hp
    rcases mem_consHead hp with ⟨hnil, rfl⟩ | ⟨h', t, hL, hp⟩
    · exact absurd hnil (splitTwoNl_ne_nil _)
    · rcases hp with rfl | hp
      · rcases List.mem_cons.1 hc with rfl | hc
        · exact List.mem_cons_self _ _
        · have := ih h' (hL ▸ List.mem_cons_self h' t) c hc
          exact List.mem_cons_of_mem _ this
      · have := ih p (hL ▸ List.mem_cons_of_mem h' hp) c hc
        exact List.mem_cons_of_mem _ this

/-- Characters of the sentence pieces come from the original text. -/
theorem sentGo_chars :
    ∀ (s : Str) (sk pp : Bool), ∀ p ∈ sentGo sk pp s, ∀ c ∈ p, c ∈ s := by
  intro s
  induction s with
  | nil =>
    intro sk pp p hp c hc
    simp [sentGo] at hp
    subst hp
    exact absurd hc (List.not_mem_nil c)
  | cons c0 rest ih =>
    intro sk pp p hp c hc
    rw [sentGo] at hp
    split at hp
    · exact List.mem_cons_of_mem _ (ih _ _ p hp c hc)
    · split at hp
      · rcases List.mem_cons.1 hp with rfl | hp
        · exact absurd hc (List.not_mem_nil c)
        · exact List.mem_cons_of_mem _ (ih _ _ p hp c hc)
      · rcases mem_consHead hp with ⟨hnil, rfl⟩ | ⟨h', t, hL, hp⟩
        · exact absurd hnil (sentGo_ne_nil _ _ _)
        · rcases hp with rfl | hp
          · rcases List.mem_cons.1 hc with rfl | hc
            · exact List.mem_cons_self _ _
            · exact List.mem_cons_of_mem _
                (ih _ _ h' (hL ▸ List.mem_cons_self h' t) c hc)
          · exact List.mem_cons_of_mem _
              (ih _ _ p (hL ▸ List.mem_cons_of_mem h' hp) c hc)

theorem charsOK_intercalate {sep : Str} {parts : List Str}
    (hsep : CharsOK sep) (hparts : ∀ p ∈ parts, CharsOK p) :
    CharsOK (List.intercalate sep parts) := by
  induction parts with
  | nil =>
    intro c hc
    simp [List.intercalate] at hc
  | cons p parts ih =>
    cases parts with
    | nil =>
      rw [intercalate_singleton]
      exact hparts p (List.mem_cons_self _ _)
    | cons q parts' =>
      intro c hc
      have hsplit : List.intercalate sep (p :: q :: parts') =
          p ++ sep ++ List.intercalate sep (q :: parts') := by
        simp [List.intercalate, List.intersperse]
      rw [hsplit] at hc
      rcases List.mem_append.1 hc with hc | hc
      · rcases List.mem_append.1 hc with hc | hc
        · exact hparts p (List.mem_cons_self _ _) c hc
        · exact hsep c hc
      · exact ih (fun x hx => hparts x (List.mem_cons_of_mem _ hx)) c hc

theorem charsOK_pySlice {l : List Str} (h : ∀ p ∈ l, CharsOK p) (i j : Nat) :
    ∀ p ∈ pySlice l i j, CharsOK p := by
  intro p hp
  exact h p (List.drop_subset i l (List.take_subset _ _ hp))

theorem charsOK_getD {l : List Str} (h : ∀ p ∈ l, CharsOK p) (i : Nat) :
    CharsOK (l.getD i []) := by
  by_cases hi : i < l.length
  · exact h _ (getD_mem hi)
  · rw [List.getD_eq_default l [] (by omega)]
    intro c hc
    exact absurd hc (List.not_mem_nil c)

theorem charsOK_nl2 : CharsOK nl2 := by decide

theorem charsOK_space : CharsOK [' '] := by decide

theorem charsOK_nil : CharsOK [] := by
  intro c hc
  exact absurd hc (List.not_mem_nil c)

/-- C5: every content field of every record of `compare_texts` contains
none of the characters rewritten by the sanitiser, because both inputs are
rewritten before any splitting or alignment, replacing each occurrence of
the four characters by its HTML entity (the character-wise map `sanChar`);
record content can therefore differ textually from the raw inputs. -/
theorem compare_texts_no_markup :
    (∀ t1 t2 : Str, ∀ r ∈ compare_texts t1 t2,
      CharsOK r.old_content ∧ CharsOK r.new_content) ∧
    ∀ t : Str, sanitize t = t.flatMap sanChar := by
  refine ⟨?_, sanitize_eq_flatMap⟩
  intro t1 t2 r hr
  have hps1 : ∀ p ∈ splitTwoNl (sanitize t1), CharsOK p := fun p hp c hc =>
    sanitize_charsOK t1 c (splitTwoNl_chars _ p hp c hc)
  have hps2 : ∀ p ∈ splitTwoNl (sanitize t2), CharsOK p := fun p hp c hc =>
    sanitize_charsOK t2 c (splitTwoNl_chars _ p hp c hc)
  have hr' : r ∈ (getOpcodes (splitTwoNl (sanitize t1))
      (splitTwoNl (sanitize t2))).flatMap
      (emitParaOp (splitTwoNl (sanitize t1)) (splitTwoNl (sanitize t2))) := hr
  rcases List.mem_flatMap.1 hr' with ⟨op, hop, hrop⟩
  rcases op with ⟨tag, i1, i2, j1, j2⟩
  cases tag with
  | equal =>
    simp only [emitParaOp] at hrop
    rcases List.mem_map.1 hrop with ⟨idx, _, heq⟩
    rw [← heq]
    exact ⟨charsOK_getD hps1 _, charsOK_getD hps1 _⟩
  | delete =>
    simp only [emitParaOp] at hrop
    rcases List.mem_map.1 hrop with ⟨idx, _, heq⟩
    rw [← heq]
    exact ⟨charsOK_getD hps1 _, charsOK_nil⟩
  | insert =>
    simp only [emitParaOp] at hrop
    rcases List.mem_map.1 hrop with ⟨idx, _, heq⟩
    rw [← heq]
    exact ⟨charsOK_nil, charsOK_getD hps2 _⟩
  | replace =>
    simp only [emitParaOp] at hrop
    have hos : ∀ p ∈ sentSplit (List.intercalate nl2
        (pySlice (splitTwoNl (sanitize t1)) i1 i2)), CharsOK p := by
      intro p hp c hc
      exact charsOK_intercalate charsOK_nl2 (charsOK_pySlice hps1 i1 i2) c
        (sentGo_chars _ _ _ p hp c hc)
    have hns : ∀ p ∈ sentSplit (List.intercalate nl2
        (pySlice (splitTwoNl (sanitize t2)) j1 j2)), CharsOK p := by
      intro p hp c hc
      exact charsOK_intercalate charsOK_nl2 (charsOK_pySlice hps2 j1 j2) c
        (sentGo_chars _ _ _ p hp c hc)
    rcases List.mem_flatMap.1 hrop with ⟨sop, hsop, hrsop⟩
    rcases sop with ⟨stag, si1, si2, sj1, sj2⟩
    cases stag with
    | equal =>
      simp only [emitSentOp] at hrsop
      rcases List.mem_map.1 hrsop with ⟨idx, _, heq⟩
      rw [← heq]
      exact ⟨charsOK_getD hos _, charsOK_getD hos _⟩
    | replace =>
      simp only [emitSentOp] at hrsop
      rw [List.mem_singleton.1 hrsop]
      exact ⟨charsOK_intercalate charsOK_space (charsOK_pySlice hos _ _),
             charsOK_intercalate charsOK_space (charsOK_pySlice hns _ _)⟩
    | delete =>
      simp only [emitSentOp] at hrsop
      rw [List.mem_singleton.1 hrsop]
      exact ⟨charsOK_intercalate charsOK_space (charsOK_pySlice hos _ _), charsOK_nil⟩
    | insert =>
      simp only [emitSentOp] at hrsop
      rw [List.mem_singleton.1 hrsop]
      exact ⟨charsOK_nil, charsOK_intercalate charsOK_space (charsOK_pySlice hns _ _)⟩

/-- Witness for C5 at a concrete input containing a markup character. -/
theorem compare_texts_no_markup_witness :
    CharsOK (⟨"equal".data, "a&lt;b".data, "a&lt;b".data⟩ : DiffRecord).old_content ∧
    CharsOK (⟨"equal".data, "a&lt;b".data, "a&lt;b".data⟩ : DiffRecord).new_content :=
  compare_texts_no_markup.1 ("a<b".data) ("a<b".data)
    ⟨"equal".data, "a&lt;b".data, "a&lt;b".data⟩ (by decide)

/-! ### Word streams: whitespace tokenisation lemmas -/

/-- Every character of `s` is whitespace. -/
def allSpace (s : Str) : Prop := ∀ c ∈ s, isPySpace c = true

instance (s : Str) : Decidable (allSpace s) := by
  unfold allSpace
  infer_instance

theorem pyWordsGo_space_pre :
    ∀ w : Str, allSpace w → ∀ y : Str, pyWordsGo [] (w ++ y) = pyWordsGo [] y := by
  intro w
  induction w with
  | nil => intro _ y; rfl
  | cons c w ih =>
    intro hsp y
    rw [List.cons_append, pyWordsGo]
    rw [if_pos (hsp c (List.mem_cons_self _ _)), if_pos rfl]
    exact ih (fun x hx => hsp x (List.mem_cons_of_mem _ hx)) y

theorem pyWordsGo_nil (acc : Str) :
    pyWordsGo acc [] = if acc = [] then [] else [acc] := rfl

theorem pyWordsGo_cons (acc : Str) (c : Char) (rest : Str) :
    pyWordsGo acc (c :: rest) =
      if isPySpace c = true then
        (if acc = [] then pyWordsGo [] rest else acc :: pyWordsGo [] rest)
      else pyWordsGo (acc ++ [c]) rest := rfl

/-- Splitting the word stream at a nonempty whitespace separator. -/
theorem pyWordsGo_sep_append (sep : Str) (hne : sep ≠ []) (hsp : allSpace sep)
    (y : Str) :
    ∀ x acc, pyWordsGo acc ((x ++ sep) ++ y) = pyWordsGo acc x ++ pyWordsGo [] y := by
  intro x
  induction x with
  | nil =>
    intro acc
    cases sep with
    | nil => exact absurd rfl hne
    | cons s sep' =>
      rw [List.nil_append, List.cons_append, pyWordsGo_cons]
      rw [if_pos (hsp s (List.mem_cons_self _ _))]
      have htail := pyWordsGo_space_pre sep'
        (fun x hx => hsp x (List.mem_cons_of_mem _ hx)) y
      by_cases hacc : acc = []
      · rw [if_pos hacc, htail, pyWordsGo_nil, if_pos hacc, List.nil_append]
      · rw [if_neg hacc, htail, pyWordsGo_nil, if_neg hacc, List.singleton_append]
  | cons c x ih =>
    intro acc
    rw [List.cons_append, List.cons_append, pyWordsGo_cons, pyWordsGo_cons]
    by_cases hc : isPySpace c = true
    · rw [if_pos hc, if_pos hc]
      by_cases hacc : acc = []
      · rw [if_pos hacc, if_pos hacc]
        exact ih []
      · rw [if_neg hacc, if_neg hacc, ih [], List.cons_append]
    · rw [if_neg hc, if_neg hc]
      exact ih (acc ++ [c])

/-- The word stream of a text with a nonempty whitespace separator inside. -/
theorem pyWords_sep_append (x sep y : Str) (hne : sep ≠ []) (hsp : allSpace sep) :
    pyWords ((x ++ sep) ++ y) = pyWords x ++ pyWords y :=
  pyWordsGo_sep_append sep hne hsp y x []

/-- `l` is the interleaving of the pieces `ps` with nonempty whitespace
separators. -/
inductive Interleaved : List Str → Str → Prop
  | single (p : Str) : Interleaved [p] p
  | cons (p sep : Str) (ps : List Str) (rest : Str) :
      sep ≠ [] → allSpace sep → Interleaved ps rest →
      Interleaved (p :: ps) ((p ++ sep) ++ rest)

/-- The word stream of an interleaving is the concatenation of the pieces'
word streams. -/
theorem words_of_interleaved {ps : List Str} {l : Str} (h : Interleaved ps l) :
    pyWords l = (ps.map pyWords).flatten := by
  induction h with
  | single p => simp
  | cons p sep ps rest hne hsp _ ih =>
    rw [pyWords_sep_append p sep rest hne hsp, ih]
    simp

theorem interleaved_consHead {ps : List Str} {l : Str} (c : Char)
    (h : Interleaved ps l) : Interleaved (consHead c ps) (c :: l) := by
  cases h with
  | single => exact Interleaved.single _
  | cons p sep ps rest hne hsp hrest =>
    exact Interleaved.cons (c :: p) sep ps rest hne hsp hrest

/-- The paragraph pieces interleave the original text with `'\n\n'`
separators. -/
theorem interleaved_splitTwoNl : ∀ s : Str, Interleaved (splitTwoNl s) s := by
  intro s
  induction s using splitTwoNl.induct with
  | case1 => exact Interleaved.single []
  | case2 c => exact Interleaved.single [c]
  | case3 c1 c2 rest hcond ih =>
    rw [splitTwoNl, if_pos hcond]
    rcases hcond with ⟨h1, h2⟩
    subst h1
    subst h2
    exact Interleaved.cons [] nl2 (splitTwoNl rest) rest (by decide) (by decide) ih
  | case4 c1 c2 rest hcond ih =>
    rw [splitTwoNl, if_neg hcond]
    exact interleaved_consHead c1 ih

/-- In skipping mode the scanner first discards a whitespace run. -/
theorem sentGo_skip :
    ∀ s : Str, ∃ sep rest, s = sep ++ rest ∧ allSpace sep ∧
      sentGo true false s = sentGo false false rest := by
  intro s
  induction s with
  | nil =>
    exact ⟨[], [], rfl, fun c hc => absurd hc (List.not_mem_nil c), rfl⟩
  | cons c rest ih =>
    by_cases hc : isPySpace c = true
    · rcases ih with ⟨sep, rest', he, hsp, hgo⟩
      refine ⟨c :: sep, rest', by rw [List.cons_append, ← he], ?_, ?_⟩
      · intro x hx
        rcases List.mem_cons.1 hx with rfl | hx
        · exact hc
        · exact hsp x hx
      · rw [sentGo, if_pos (by simpa using hc)]
        exact hgo
    · refine ⟨[], c :: rest, rfl, fun x hx => absurd hx (List.not_mem_nil x), ?_⟩
      rw [sentGo, sentGo]
      rw [if_neg (by simpa using hc), if_neg (by simp), if_neg (by simp)]

/-- The sentence pieces interleave the original text with whitespace-run
separators. -/
theorem interleaved_sentGo :
    ∀ n (s : Str), s.length ≤ n → ∀ pp, Interleaved (sentGo false pp s) s := by
  intro n
  induction n with
  | zero =>
    intro s hs pp
    have hnil : s = [] := List.length_eq_zero.1 (by omega)
    subst hnil
    exact Interleaved.single []
  | succ n ih =>
    intro s hs pp
    cases s with
    | nil => exact Interleaved.single []
    | cons c rest =>
      rw [sentGo, if_neg (by simp)]
      by_cases hcond : (pp && isPySpace c) = true
      · rw [if_pos hcond]
        rcases sentGo_skip rest with ⟨sep, rest', he, hsp, hgo⟩
        rw [hgo]
        have hlen : rest'.length ≤ n := by
          have := congrArg List.length he
          simp at this hs
          omega
        have hint := ih rest' hlen false
        have hshape : (c :: rest : Str) = ([] ++ (c :: sep)) ++ rest' := by
          rw [List.nil_append, List.cons_append, ← he]
        rw [hshape]
        refine Interleaved.cons [] (c :: sep) _ rest' (by simp) ?_ hint
        intro x hx
        rcases List.mem_cons.1 hx with rfl | hx
        · exact (Bool.and_eq_true _ _ ▸ hcond).2
        · exact hsp x hx
      · rw [if_neg hcond]
        have hlen : rest.length ≤ n := by
          simp at hs
          omega
        exact interleaved_consHead c (ih rest hlen _)

theorem interleaved_sentSplit (s : Str) : Interleaved (sentSplit s) s :=
  interleaved_sentGo s.length s (Nat.le_refl _) false

/-- The sentence word streams concatenate to the text's word stream. -/
theorem words_sentSplit (s : Str) :
    ((sentSplit s).map pyWords).flatten = pyWords s :=
  (words_of_interleaved (interleaved_sentSplit s)).symm

/-- The paragraph word streams concatenate to the text's word stream. -/
theorem words_splitTwoNl (s : Str) :
    ((splitTwoNl s).map pyWords).flatten = pyWords s :=
  (words_of_interleaved (interleaved_splitTwoNl s)).symm

/-- Joining with a nonempty whitespace separator preserves the word
stream. -/
theorem words_intercalate (sep : Str) (hne : sep ≠ []) (hsp : allSpace sep) :
    ∀ ps : List Str, pyWords (List.intercalate sep ps) = (ps.map pyWords).flatten := by
  intro ps
  induction ps with
  | nil => simp [List.intercalate, pyWords, pyWordsGo]
  | cons p ps ih =>
    cases ps with
    | nil =>
      rw [intercalate_singleton]
      simp
    | cons q ps' =>
      have hsplit : List.intercalate sep (p :: q :: ps') =
          (p ++ sep) ++ List.intercalate sep (q :: ps') := by
        simp [List.intercalate, List.intersperse, List.append_assoc]
      rw [hsplit, pyWords_sep_append _ _ _ hne hsp, ih]
      simp

/-! ### Per-opcode word streams -/

theorem pySlice_append (l : List Str) {i j k : Nat} (h1 : i ≤ j) (h2 : j ≤ k) :
    pySlice l i k = pySlice l i j ++ pySlice l j k := by
  unfold pySlice
  rw [show k - i = (j - i) + (k - j) by omega, List.take_add]
  congr 1
  rw [List.drop_drop, show i + (j - i) = j by omega]

theorem pySlice_empty (l : List Str) (i : Nat) : pySlice l i i = [] := by
  simp [pySlice]

theorem range'_map_getD (l : List Str) :
    ∀ n i, i + n ≤ l.length →
      (List.range' i n).map (fun t => l.getD t []) = pySlice l i (i + n) := by
  intro n
  induction n with
  | zero =>
    intro i h
    simp [pySlice]
  | succ n ih =>
    intro i h
    rw [List.range'_succ, List.map_cons, ih (i + 1) (by omega)]
    unfold pySlice
    rw [show i + (n + 1) - i = n + 1 by omega, show i + 1 + n - (i + 1) = n by omega]
    rw [List.drop_eq_getElem_cons (by omega : i < l.length), List.take_succ_cons]
    rw [List.getD_eq_getElem l [] (by omega : i < l.length)]

theorem map_range'_congr {α : Type} (f g : Nat → α) :
    ∀ n i j, (∀ t, t < n → f (i + t) = g (j + t)) →
      (List.range' i n).map f = (List.range' j n).map g := by
  intro n
  induction n with
  | zero => intro i j _; rfl
  | succ n ih =>
    intro i j h
    rw [List.range'_succ, List.range'_succ, List.map_cons, List.map_cons]
    congr 1
    · simpa using h 0 (by omega)
    · refine ih (i + 1) (j + 1) ?_
      intro t ht
      have := h (t + 1) (by omega)
      have e1 : i + (t + 1) = i + 1 + t := by omega
      have e2 : j + (t + 1) = j + 1 + t := by omega
      rwa [e1, e2] at this

theorem allSpace_space : allSpace [' '] := by decide

/-- The old-side word stream of the records of one sentence opcode. -/
theorem emitSentOp_old_words (os ns : List Str) (o : Opcode)
    (htag : TagOK os ns o) (h1 : o.i1 ≤ o.i2) (h2 : o.i2 ≤ os.length) :
    (((emitSentOp os ns o).map (fun r => pyWords r.old_content)).flatten)
      = ((pySlice os o.i1 o.i2).map pyWords).flatten := by
  rcases o with ⟨tag, i1, i2, j1, j2⟩
  cases tag with
  | equal =>
    simp only [emitSentOp, List.map_map]
    have hmap : ((List.range' i1 (i2 - i1)).map
        ((fun r : DiffRecord => pyWords r.old_content) ∘
          (fun si => ⟨"equal".data, os.getD si [], os.getD si []⟩))) =
        (List.range' i1 (i2 - i1)).map (fun si => pyWords (os.getD si [])) := rfl
    rw [hmap]
    have h3 : i1 + (i2 - i1) ≤ os.length := by
      simp only at h1 h2
      omega
    have := range'_map_getD os (i2 - i1) i1 h3
    have h4 : i1 + (i2 - i1) = i2 := by
      simp only at h1
      omega
    rw [h4] at this
    rw [show ((List.range' i1 (i2 - i1)).map (fun si => pyWords (os.getD si []))) =
        ((List.range' i1 (i2 - i1)).map (fun t => os.getD t [])).map pyWords by
      rw [List.map_map]; rfl]
    rw [this]
  | replace =>
    simp only [emitSentOp, List.map_cons, List.map_nil, List.flatten_cons,
      List.flatten_nil, List.append_nil]
    exact words_intercalate [' '] (by simp) allSpace_space _
  | delete =>
    simp only [emitSentOp, List.map_cons, List.map_nil, List.flatten_cons,
      List.flatten_nil, List.append_nil]
    exact words_intercalate [' '] (by simp) allSpace_space _
  | insert =>
    simp only [emitSentOp, List.map_cons, List.map_nil, List.flatten_cons,
      List.flatten_nil, List.append_nil]
    have he : i1 = i2 := htag.1
    rw [he, pySlice_empty]
    rfl

/-- The new-side word stream of the records of one sentence opcode. -/
theorem emitSentOp_new_words (os ns : List Str) (o : Opcode)
    (htag : TagOK os ns o) (h1 : o.j1 ≤ o.j2) (h2 : o.j2 ≤ ns.length) :
    (((emitSentOp os ns o).map (fun r => pyWords r.new_content)).flatten)
      = ((pySlice ns o.j1 o.j2).map pyWords).flatten := by
  rcases o with ⟨tag, i1, i2, j1, j2⟩
  cases tag with
  | equal =>
    simp only [emitSentOp, List.map_map]
    have hmap : ((List.range' i1 (i2 - i1)).map
        ((fun r : DiffRecord => pyWords r.new_content) ∘
          (fun si => ⟨"equal".data, os.getD si [], os.getD si []⟩))) =
        (List.range' i1 (i2 - i1)).map (fun si => pyWords (os.getD si [])) := rfl
    rw [hmap]
    have hlen : i2 - i1 = j2 - j1 := htag.1
    have hcong : (List.range' i1 (i2 - i1)).map (fun si => pyWords (os.getD si [])) =
        (List.range' j1 (i2 - i1)).map (fun sj => pyWords (ns.getD sj [])) := by
      refine map_range'_congr _ _ (i2 - i1) i1 j1 ?_
      intro t ht
      have := htag.2.2 t ht
      rw [this]
    rw [hcong, hlen]
    have h3 : j1 + (j2 - j1) ≤ ns.length := by
      simp only at h1 h2
      omega
    have := range'_map_getD ns (j2 - j1) j1 h3
    have h4 : j1 + (j2 - j1) = j2 := by
      simp only at h1
      omega
    rw [h4] at this
    rw [show ((List.range' j1 (j2 - j1)).map (fun sj => pyWords (ns.getD sj []))) =
        ((List.range' j1 (j2 - j1)).map (fun t => ns.getD t [])).map pyWords by
      rw [List.map_map]; rfl]
    rw [this]
  | replace =>
    simp only [emitSentOp, List.map_cons, List.map_nil, List.flatten_cons,
      List.flatten_nil, List.append_nil]
    exact words_intercalate [' '] (by simp) allSpace_space _
  | insert =>
    simp only [emitSentOp, List.map_cons, List.map_nil, List.flatten_cons,
      List.flatten_nil, List.append_nil]
    exact words_intercalate [' '] (by simp) allSpace_space _
  | delete =>
    simp only [emitSentOp, List.map_cons, List.map_nil, List.flatten_cons,
      List.flatten_nil, List.append_nil]
    have he : j1 = j2 := htag.2
    rw [he, pySlice_empty]
    rfl

/-- An opcode chain's sentence-record old-content words are the old side's
words in order. -/
theorem chain_sent_old_words {a b : List Str} :
    ∀ {i j : Nat} {ops : List Opcode},
      OpChain a b a.length b.length i j ops →
      ((ops.flatMap (emitSentOp a b)).map (fun r => pyWords r.old_content)).flatten
        = ((pySlice a i a.length).map pyWords).flatten := by
  intro i j ops h
  induction h with
  | nil =>
    rw [pySlice_empty]
    rfl
  | op i j o rest e1 e2 e3 e4 e5 e6 htag hrest ih =>
    rw [List.flatMap_cons, List.map_append, List.flatten_append,
      emitSentOp_old_words a b o htag (by omega) e3, ih, e1,
      ← List.flatten_append, ← List.map_append,
      ← pySlice_append a e5 e3]

/-- An opcode chain's sentence-record new-content words are the new side's
words in order. -/
theorem chain_sent_new_words {a b : List Str} :
    ∀ {i j : Nat} {ops : List Opcode},
      OpChain a b a.length b.length i j ops →
      ((ops.flatMap (emitSentOp a b)).map (fun r => pyWords r.new_content)).flatten
        = ((pySlice b j b.length).map pyWords).flatten := by
  intro i j ops h
  induction h with
  | nil =>
    rw [pySlice_empty]
    rfl
  | op i j o rest e1 e2 e3 e4 e5 e6 htag hrest ih =>
    rw [List.flatMap_cons, List.map_append, List.flatten_append,
      emitSentOp_new_words a b o htag (by omega) e4, ih, e2,
      ← List.flatten_append, ← List.map_append,
      ← pySlice_append b e6 e4]

theorem nl2_ne_nil : nl2 ≠ [] := by decide

theorem allSpace_nl2 : allSpace nl2 := by decide

/-- The old-side word stream of one paragraph opcode's records. -/
theorem emitParaOp_old_words (ps1 ps2 : List Str) (o : Opcode)
    (htag : TagOK ps1 ps2 o) (h1 : o.i1 ≤ o.i2) (h2 : o.i2 ≤ ps1.length) :
    (((emitParaOp ps1 ps2 o).map (fun r => pyWords r.old_content)).flatten)
      = ((pySlice ps1 o.i1 o.i2).map pyWords).flatten := by
  rcases o with ⟨tag, i1, i2, j1, j2⟩
  cases tag with
  | equal =>
    simp only [emitParaOp, List.map_map]
    have hmap : ((List.range' i1 (i2 - i1)).map
        ((fun r : DiffRecord => pyWords r.old_content) ∘
          (fun i => ⟨"equal".data, ps1.getD i [], ps1.getD i []⟩))) =
        (List.range' i1 (i2 - i1)).map (fun i => pyWords (ps1.getD i [])) := rfl
    rw [hmap]
    have h3 : i1 + (i2 - i1) ≤ ps1.length := by
      simp only at h1 h2
      omega
    have hr := range'_map_getD ps1 (i2 - i1) i1 h3
    have h4 : i1 + (i2 - i1) = i2 := by
      simp only at h1
      omega
    rw [h4] at hr
    rw [show ((List.range' i1 (i2 - i1)).map (fun i => pyWords (ps1.getD i []))) =
        ((List.range' i1 (i2 - i1)).map (fun t => ps1.getD t [])).map pyWords by
      rw [List.map_map]; rfl]
    rw [hr]
  | replace =>
    simp only [emitParaOp]
    rw [chain_sent_old_words (getOpcodes_chain _ _), pySlice_full,
      words_sentSplit, words_intercalate nl2 nl2_ne_nil allSpace_nl2]
  | delete =>
    simp only [emitParaOp, List.map_map]
    have hmap : ((List.range' i1 (i2 - i1)).map
        ((fun r : DiffRecord => pyWords r.old_content) ∘
          (fun i => ⟨"deleted".data, ps1.getD i [], []⟩))) =
        (List.range' i1 (i2 - i1)).map (fun i => pyWords (ps1.getD i [])) := rfl
    rw [hmap]
    have h3 : i1 + (i2 - i1) ≤ ps1.length := by
      simp only at h1 h2
      omega
    have hr := range'_map_getD ps1 (i2 - i1) i1 h3
    have h4 : i1 + (i2 - i1) = i2 := by
      simp only at h1
      omega
    rw [h4] at hr
    rw [show ((List.range' i1 (i2 - i1)).map (fun i => pyWords (ps1.getD i []))) =
        ((List.range' i1 (i2 - i1)).map (fun t => ps1.getD t [])).map pyWords by
      rw [List.map_map]; rfl]
    rw [hr]
  | insert =>
    simp only [emitParaOp, List.map_map]
    have he : i1 = i2 := htag.1
    rw [he, pySlice_empty]
    simp [Function.comp_def, pyWords, pyWordsGo]

/-- The new-side word stream of one paragraph opcode's records. -/
theorem emitParaOp_new_words (ps1 ps2 : List Str) (o : Opcode)
    (htag : TagOK ps1 ps2 o) (h1 : o.j1 ≤ o.j2) (h2 : o.j2 ≤ ps2.length) :
    (((emitParaOp ps1 ps2 o).map (fun r => pyWords r.new_content)).flatten)
      = ((pySlice ps2 o.j1 o.j2).map pyWords).flatten := by
  rcases o with ⟨tag, i1, i2, j1, j2⟩
  cases tag with
  | equal =>
    simp only [emitParaOp, List.map_map]
    have hmap : ((List.range' i1 (i2 - i1)).map
        ((fun r : DiffRecord => pyWords r.new_content) ∘
          (fun i => ⟨"equal".data, ps1.getD i [], ps1.getD i []⟩))) =
        (List.range' i1 (i2 - i1)).map (fun i => pyWords (ps1.getD i [])) := rfl
    rw [hmap]
    have hlen : i2 - i1 = j2 - j1 := htag.1
    have hcong : (List.range' i1 (i2 - i1)).map (fun i => pyWords (ps1.getD i [])) =
        (List.range' j1 (i2 - i1)).map (fun j => pyWords (ps2.getD j [])) := by
      refine map_range'_congr _ _ (i2 - i1) i1 j1 ?_
      intro t ht
      have := htag.2.2 t ht
      rw [this]
    rw [hcong, hlen]
    have h3 : j1 + (j2 - j1) ≤ ps2.length := by
      simp only at h1 h2
      omega
    have hr := range'_map_getD ps2 (j2 - j1) j1 h3
    have h4 : j1 + (j2 - j1) = j2 := by
      simp only at h1
      omega
    rw [h4] at hr
    rw [show ((List.range' j1 (j2 - j1)).map (fun j => pyWords (ps2.getD j []))) =
        ((List.range' j1 (j2 - j1)).map (fun t => ps2.getD t [])).map pyWords by
      rw [List.map_map]; rfl]
    rw [hr]
  | replace =>
    simp only [emitParaOp]
    rw [chain_sent_new_words (getOpcodes_chain _ _), pySlice_full,
      words_sentSplit, words_intercalate nl2 nl2_ne_nil allSpace_nl2]
  | insert =>
    simp only [emitParaOp, List.map_map]
    have hmap : ((List.range' j1 (j2 - j1)).map
        ((fun r : DiffRecord => pyWords r.new_content) ∘
          (fun j => ⟨"added".data, [], ps2.getD j []⟩))) =
        (List.range' j1 (j2 - j1)).map (fun j => pyWords (ps2.getD j [])) := rfl
    rw [hmap]
    have h3 : j1 + (j2 - j1) ≤ ps2.length := by
      simp only at h1 h2
      omega
    have hr := range'_map_getD ps2 (j2 - j1) j1 h3
    have h4 : j1 + (j2 - j1) = j2 := by
      simp only at h1
      omega
    rw [h4] at hr
    rw [show ((List.range' j1 (j2 - j1)).map (fun j => pyWords (ps2.getD j []))) =
        ((List.range' j1 (j2 - j1)).map (fun t => ps2.getD t [])).map pyWords by
      rw [List.map_map]; rfl]
    rw [hr]
  | delete =>
    simp only [emitParaOp, List.map_map]
    have he : j1 = j2 := htag.2
    rw [he, pySlice_empty]
    simp [Function.comp_def, pyWords, pyWordsGo]

/-- An opcode chain's paragraph-record old-content words are the old side's
words in order. -/
theorem chain_para_old_words {ps1 ps2 : List Str} :
    ∀ {i j : Nat} {ops : List Opcode},
      OpChain ps1 ps2 ps1.length ps2.length i j ops →
      ((ops.flatMap (emitParaOp ps1 ps2)).map (fun r => pyWords r.old_content)).flatten
        = ((pySlice ps1 i ps1.length).map pyWords).flatten := by
  intro i j ops h
  induction h with
  | nil =>
    rw [pySlice_empty]
    rfl
  | op i j o rest e1 e2 e3 e4 e5 e6 htag hrest ih =>
    rw [List.flatMap_cons, List.map_append, List.flatten_append,
      emitParaOp_old_words ps1 ps2 o htag (by omega) e3, ih, e1,
      ← List.flatten_append, ← List.map_append,
      ← pySlice_append ps1 e5 e3]

/-- An opcode chain's paragraph-record new-content words are the new side's
words in order. -/
theorem chain_para_new_words {ps1 ps2 : List Str} :
    ∀ {i j : Nat} {ops : List Opcode},
      OpChain ps1 ps2 ps1.length ps2.length i j ops →
      ((ops.flatMap (emitParaOp ps1 ps2)).map (fun r => pyWords r.new_content)).flatten
        = ((pySlice ps2 j ps2.length).map pyWords).flatten := by
  intro i j ops h
  induction h with
  | nil =>
    rw [pySlice_empty]
    rfl
  | op i j o rest e1 e2 e3 e4 e5 e6 htag hrest ih =>
    rw [List.flatMap_cons, List.map_append, List.flatten_append,
      emitParaOp_new_words ps1 ps2 o htag (by omega) e4, ih, e2,
      ← List.flatten_append, ← List.map_append,
      ← pySlice_append ps2 e6 e4]

/-- C6: the opcodes of the matcher cover both sequences exactly once, in
order, with `equal` spans element-wise identical (the chain property), and
the records of `compare_texts` reconstruct both inputs' word streams: the
concatenation of the old-content fields' words, in emission order, is
exactly the word stream of the sanitised first input, and likewise for the
new-content fields and the second input — no paragraph or sentence content
is dropped or duplicated. -/
theorem compare_texts_coverage :
    (∀ a b : List Str, OpChain a b a.length b.length 0 0 (getOpcodes a b)) ∧
    (∀ t1 t2 : Str,
      (((compare_texts t1 t2).map (fun r => pyWords r.old_content)).flatten
          = pyWords (sanitize t1)) ∧
      (((compare_texts t1 t2).map (fun r => pyWords r.new_content)).flatten
          = pyWords (sanitize t2))) := by
  refine ⟨getOpcodes_chain, ?_⟩
  intro t1 t2
  constructor
  · show (((getOpcodes (splitTwoNl (sanitize t1)) (splitTwoNl (sanitize t2))).flatMap
        (emitParaOp (splitTwoNl (sanitize t1)) (splitTwoNl (sanitize t2)))).map
        (fun r => pyWords r.old_content)).flatten = pyWords (sanitize t1)
    rw [chain_para_old_words (getOpcodes_chain _ _), pySlice_full, words_splitTwoNl]
  · show (((getOpcodes (splitTwoNl (sanitize t1)) (splitTwoNl (sanitize t2))).flatMap
        (emitParaOp (splitTwoNl (sanitize t1)) (splitTwoNl (sanitize t2)))).map
        (fun r => pyWords r.new_content)).flatten = pyWords (sanitize t2)
    rw [chain_para_new_words (getOpcodes_chain _ _), pySlice_full, words_splitTwoNl]

/-! ### C3: the identity diff -/

/-- The cell condition of the main loop on the pair `(a, a)` over the full
rectangle: column `j` is visited in row `i` exactly when `j` is a stored
(non-popular) position of `a[i]` in `a`. -/
def matchOKb (a : List Str) (i j : Nat) : Bool :=
  decide (j < a.length) && decide (a.getD j [] = a.getD i []) &&
    !(isPopular a (a.getD i []))

/-- The filtered position list the inner loop iterates over in row `i` (for
`blo = 0`, `bhi = len(a)`). -/
def jsList (a : List Str) (i : Nat) : List Nat :=
  (b2j a (a.getD i [])).filter (fun j => decide (0 ≤ j) && decide (j < a.length))

theorem jsList_eq (a : List Str) (i : Nat) :
    jsList a i =
      (b2j a (a.getD i [])).filter (fun j => decide (0 ≤ j) && decide (j < a.length)) := rfl

theorem matchOKb_true_iff (a : List Str) (i j : Nat) :
    matchOKb a i j = true ↔
      j < a.length ∧ a.getD j [] = a.getD i [] ∧ isPopular a (a.getD i []) = false := by
  simp [matchOKb, and_assoc]

theorem mem_jsList (a : List Str) (i j : Nat) :
    j ∈ jsList a i ↔ matchOKb a i j = true := by
  rw [matchOKb_true_iff]
  unfold jsList b2j
  by_cases hpop : isPopular a (a.getD i []) = true
  · rw [if_pos hpop]
    constructor
    · intro h
      rw [List.filter_nil] at h
      exact absurd h (List.not_mem_nil j)
    · rintro ⟨h1, h2, h3⟩
      rw [hpop] at h3
      exact Bool.noConfusion h3
  · rw [if_neg hpop]
    have hpop' : isPopular a (a.getD i []) = false := by
      cases hb : isPopular a (a.getD i [])
      · rfl
      · exact absurd hb hpop
    constructor
    · intro h
      rcases List.mem_filter.1 h with ⟨hmem, hcond⟩
      rcases List.mem_filter.1 hmem with ⟨hrange, heq⟩
      exact ⟨List.mem_range.1 hrange, of_decide_eq_true heq, hpop'⟩
    · rintro ⟨h1, h2, h3⟩
      refine List.mem_filter.2 ⟨List.mem_filter.2 ⟨List.mem_range.2 h1, decide_eq_true h2⟩, ?_⟩
      rw [Bool.and_eq_true]
      exact ⟨decide_eq_true (Nat.zero_le j), decide_eq_true h1⟩

theorem jsList_sorted (a : List Str) (i : Nat) :
    List.Pairwise (fun x y => x < y) (jsList a i) := by
  unfold jsList b2j
  split
  · simp
  · exact List.Pairwise.filter _ (List.Pairwise.filter _ (List.pairwise_lt_range _))

/-- The chain value of cell `(i, j)` of the dynamic program on `(a, a)`:
the length of the diagonal run of visited cells ending at `(i, j)`. -/
def cVal (a : List Str) : Nat → Nat → Nat
  | 0, j => if matchOKb a 0 j then 1 else 0
  | i + 1, j => if matchOKb a (i + 1) j then (if j = 0 then 0 else cVal a i (j - 1)) + 1 else 0

/-- The row-`i` view of the previous row's chain values (`0` for the first
row, matching the all-zero initial `j2len`). -/
def cPrev (a : List Str) (i j : Nat) : Nat := if i = 0 then 0 else cVal a (i - 1) j

theorem cVal_eq (a : List Str) (i j : Nat) :
    cVal a i j =
      if matchOKb a i j then (if j = 0 then 0 else cPrev a i (j - 1)) + 1 else 0 := by
  cases i with
  | zero => simp [cVal, cPrev]
  | succ i => simp [cVal, cPrev]

theorem cVal_zero_of_not {a : List Str} {i j : Nat} (h : ¬ matchOKb a i j = true) :
    cVal a i j = 0 := by
  rw [cVal_eq, if_neg h]

theorem matchOKb_symm (a : List Str) {i j : Nat}
    (hi : i < a.length) (hj : j < a.length) : matchOKb a i j = matchOKb a j i := by
  by_cases h : a.getD j [] = a.getD i []
  · unfold matchOKb
    rw [h]
    simp [hi, hj]
  · have h' : ¬ a.getD i [] = a.getD j [] := fun e => h e.symm
    unfold matchOKb
    rw [decide_eq_false h, decide_eq_false h', Bool.and_false, Bool.and_false,
      Bool.false_and, Bool.false_and]

/-- Chain values on `(a, a)` are symmetric inside the square. -/
theorem cVal_symm (a : List Str) :
    ∀ i j, i < a.length → j < a.length → cVal a i j = cVal a j i := by
  intro i
  induction i with
  | zero =>
    intro j h0 hj
    cases j with
    | zero => rfl
    | succ m =>
      show cVal a 0 (m + 1) = cVal a (m + 1) 0
      rw [cVal, cVal, matchOKb_symm a h0 hj]
      simp
  | succ i ih =>
    intro j hi hj
    cases j with
    | zero =>
      show cVal a (i + 1) 0 = cVal a 0 (i + 1)
      rw [cVal, cVal, matchOKb_symm a hi hj]
      simp
    | succ m =>
      show cVal a (i + 1) (m + 1) = cVal a (m + 1) (i + 1)
      rw [cVal, cVal, matchOKb_symm a hi hj]
      simp only [Nat.succ_ne_zero, if_false, Nat.add_sub_cancel]
      rw [ih m (by omega) (by omega)]

/-- In any row the diagonal cell carries the largest chain value at or right
of the diagonal. -/
theorem cVal_le_diag (a : List Str) :
    ∀ i j, i ≤ j → cVal a i j ≤ cVal a i i := by
  intro i
  induction i with
  | zero =>
    intro j hij
    by_cases h : matchOKb a 0 j = true
    · rcases (matchOKb_true_iff a 0 j).1 h with ⟨h1, h2, h3⟩
      have hd : matchOKb a 0 0 = true :=
        (matchOKb_true_iff a 0 0).2 ⟨by omega, rfl, h3⟩
      rw [cVal, cVal, if_pos h, if_pos hd]
    · rw [cVal_zero_of_not h]
      exact Nat.zero_le _
  | succ i ih =>
    intro j hij
    by_cases h : matchOKb a (i + 1) j = true
    · rcases (matchOKb_true_iff a (i + 1) j).1 h with ⟨h1, h2, h3⟩
      have hd : matchOKb a (i + 1) (i + 1) = true :=
        (matchOKb_true_iff a (i + 1) (i + 1)).2 ⟨by omega, rfl, h3⟩
      rcases Nat.exists_eq_add_of_le hij with ⟨m, hm⟩
      subst hm
      rw [cVal, cVal, if_pos h, if_pos hd,
        if_neg (show ¬ i + 1 + m = 0 by omega), if_neg (show ¬ i + 1 = 0 by omega),
        show i + 1 + m - 1 = i + m by omega, show i + 1 - 1 = i by omega]
      exact Nat.succ_le_succ (ih (i + m) (by omega))
    · rw [cVal_zero_of_not h]
      exact Nat.zero_le _

/-- `s` dominates every chain value in the rows before `i`. -/
def DomRows (a : List Str) (s i : Nat) : Prop :=
  ∀ p j, p < i → cVal a p j ≤ s

/-- The inner fold over one row of the identity run keeps the best match on
the diagonal and dominates every chain value seen so far: an off-diagonal
strict improvement is refuted by symmetry (a column left of the diagonal
repeats a value of an earlier row) or by diagonal domination (the diagonal
cell of the row is processed before any column right of it). -/
theorem diag_row_fold (a : List Str) (i : Nat) (hi : i < a.length)
    (f : Nat → Nat) (hf : ∀ j, f j = cPrev a i j) :
    ∀ (todo : List Nat) (st : MB × (Nat → Nat)),
      List.Pairwise (fun x y => x < y) todo →
      (∀ j ∈ todo, matchOKb a i j = true) →
      (∀ j ∈ todo, st.2 j = 0) →
      (∀ j, j ∉ todo → st.2 j = cVal a i j) →
      st.1.bi = st.1.bj →
      DomRows a st.1.bs i →
      (i ∈ todo ∨ cVal a i i ≤ st.1.bs) →
      (todo.foldl (cellStep f i) st).1.bi = (todo.foldl (cellStep f i) st).1.bj ∧
      DomRows a (todo.foldl (cellStep f i) st).1.bs i ∧
      cVal a i i ≤ (todo.foldl (cellStep f i) st).1.bs ∧
      ∀ j, (todo.foldl (cellStep f i) st).2 j = cVal a i j := by
  intro todo
  induction todo with
  | nil =>
    intro st hsort hmem hzero hdone hdiag hdom hdisj
    refine ⟨hdiag, hdom, ?_, fun j => hdone j (List.not_mem_nil j)⟩
    rcases hdisj with h | h
    · exact absurd h (List.not_mem_nil i)
    · exact h
  | cons j rest ih =>
    intro st hsort hmem hzero hdone hdiag hdom hdisj
    rw [List.foldl_cons]
    have hmj : matchOKb a i j = true := hmem j (List.mem_cons_self j rest)
    have hk : (if j = 0 then 0 else f (j - 1)) + 1 = cVal a i j := by
      rw [cVal_eq a i j, if_pos hmj]
      by_cases hj0 : j = 0
      · rw [if_pos hj0, if_pos hj0]
      · rw [if_neg hj0, if_neg hj0, hf]
    rcases List.pairwise_cons.1 hsort with ⟨hlt, hsort'⟩
    have hbs_mono : st.1.bs ≤ (cellStep f i st j).1.bs := by
      rw [cellStep_fst]
      by_cases hup : st.1.bs < (if j = 0 then 0 else f (j - 1)) + 1
      · rw [if_pos hup]
        exact Nat.le_of_lt hup
      · rw [if_neg hup]
    have hzero' : ∀ j' ∈ rest, (cellStep f i st j).2 j' = 0 := by
      intro j' hj'
      simp only [cellStep_snd]
      rw [if_neg (show ¬ j' = j by have := hlt j' hj'; omega)]
      exact hzero j' (List.mem_cons_of_mem j hj')
    have hdone' : ∀ j', j' ∉ rest → (cellStep f i st j).2 j' = cVal a i j' := by
      intro j' hj'
      simp only [cellStep_snd]
      by_cases hjj : j' = j
      · rw [if_pos hjj, hjj]
        exact hk
      · rw [if_neg hjj]
        refine hdone j' ?_
        intro hmem'
        rcases List.mem_cons.1 hmem' with h | h
        · exact hjj h
        · exact hj' h
    have hdiag' : (cellStep f i st j).1.bi = (cellStep f i st j).1.bj := by
      rw [cellStep_fst]
      by_cases hup : st.1.bs < (if j = 0 then 0 else f (j - 1)) + 1
      · rw [if_pos hup]
        have hij : j = i := by
          by_contra hne
          rcases Nat.lt_or_ge j i with hji | hji
          · have hjn : j < a.length := ((matchOKb_true_iff a i j).1 hmj).1
            have hsym : cVal a i j = cVal a j i := cVal_symm a i j hi hjn
            have hdomv : cVal a j i ≤ st.1.bs := hdom j i hji
            omega
          · have hii : cVal a i i ≤ st.1.bs := by
              rcases hdisj with h | h
              · rcases List.mem_cons.1 h with h' | h'
                · exact absurd h'.symm hne
                · exact absurd (hlt i h') (by omega)
              · exact h
            have hle : cVal a i j ≤ cVal a i i := cVal_le_diag a i j (by omega)
            omega
        subst hij
        rfl
      · rw [if_neg hup]
        exact hdiag
    have hdom' : DomRows a (cellStep f i st j).1.bs i :=
      fun p q hp => Nat.le_trans (hdom p q hp) hbs_mono
    have hdisj' : i ∈ rest ∨ cVal a i i ≤ (cellStep f i st j).1.bs := by
      by_cases hij : j = i
      · right
        subst hij
        rw [cellStep_fst]
        by_cases hup : st.1.bs < (if j = 0 then 0 else f (j - 1)) + 1
        · rw [if_pos hup]
          show cVal a j j ≤ (if j = 0 then 0 else f (j - 1)) + 1
          omega
        · rw [if_neg hup]
          show cVal a j j ≤ st.1.bs
          omega
      · rcases hdisj with h | h
        · rcases List.mem_cons.1 h with h' | h'
          · exact absurd h'.symm hij
          · exact Or.inl h'
        · exact Or.inr (Nat.le_trans h hbs_mono)
    exact ih (cellStep f i st j) hsort'
      (fun j' hj' => hmem j' (List.mem_cons_of_mem j hj'))
      hzero' hdone' hdiag' hdom' hdisj'

/-- The outer fold over the rows of the identity run keeps the best match on
the diagonal. -/
theorem diag_rows_fold (a : List Str) :
    ∀ (m i : Nat) (st : MB × (Nat → Nat)),
      i + m ≤ a.length →
      st.1.bi = st.1.bj →
      DomRows a st.1.bs i →
      (∀ j, st.2 j = cPrev a i j) →
      ((List.range' i m).foldl (rowStep a a 0 a.length) st).1.bi
        = ((List.range' i m).foldl (rowStep a a 0 a.length) st).1.bj := by
  intro m
  induction m with
  | zero =>
    intro i st hbound hdiag hdom hmap
    exact hdiag
  | succ m ih =>
    intro i st hbound hdiag hdom hmap
    rw [List.range'_succ, List.foldl_cons, rowStep_eq, ← jsList_eq]
    have hi : i < a.length := by omega
    have hrow := diag_row_fold a i hi st.2 hmap (jsList a i) (st.1, fun _ => 0)
      (jsList_sorted a i)
      (fun j hj => (mem_jsList a i j).1 hj)
      (fun j _ => rfl)
      (fun j hj => by
        have hok : ¬ matchOKb a i j = true := fun h => hj ((mem_jsList a i j).2 h)
        exact (cVal_zero_of_not hok).symm)
      hdiag hdom
      (by
        by_cases hok : matchOKb a i i = true
        · exact Or.inl ((mem_jsList a i i).2 hok)
        · exact Or.inr (by rw [cVal_zero_of_not hok]; exact Nat.zero_le _))
    rcases hrow with ⟨hd1, hd2, hd3, hd4⟩
    refine ih (i + 1) _ (by omega) hd1 ?_ ?_
    · intro p q hp
      rcases Nat.lt_or_ge p i with hpi | hpi
      · exact hd2 p q hpi
      · have hpe : p = i := by omega
        subst hpe
        rcases Nat.lt_trichotomy q p with hq | hq | hq
        · have hqn : q < a.length := by omega
          rw [cVal_symm a p q hi hqn]
          exact hd2 q p hq
        · subst hq
          exact hd3
        · exact Nat.le_trans (cVal_le_diag a p q (by omega)) hd3
    · intro j
      rw [hd4 j]
      unfold cPrev
      rw [if_neg (show ¬ i + 1 = 0 by omega)]
      simp

/-- On identical inputs the main loop's best match lies on the diagonal. -/
theorem mainLoop_self_diag (a : List Str) :
    (mainLoop a a 0 a.length 0 a.length).bi = (mainLoop a a 0 a.length 0 a.length).bj := by
  unfold mainLoop
  exact diag_rows_fold a (a.length - 0) 0 (⟨0, 0, 0⟩, fun _ => 0) (by omega) rfl
    (fun p q hp => absurd hp (Nat.not_lt_zero p))
    (fun j => by unfold cPrev; rw [if_pos rfl])

/-- On identical inputs the main loop's best is a match of the full square. -/
theorem mainLoop_self_isMatch (a : List Str) :
    IsMatch a a 0 a.length 0 a.length (mainLoop a a 0 a.length 0 a.length) := by
  unfold mainLoop
  exact rows_fold_inv (a.length - 0) 0 (Nat.le_refl 0) (by omega)
    (isMatch_mk (Nat.le_refl 0) (Nat.le_refl 0) (Nat.zero_le _) (Nat.zero_le _)
      (fun t ht => absurd ht (Nat.not_lt_zero t)))
    (fun j hj => absurd rfl hj)

/-- The backward extension of a diagonal match on `(a, a)` (with
`alo = blo = 0`) runs all the way to the origin. -/
theorem extBack_diag (a : List Str) :
    ∀ (fuel : Nat) (st : MB), st.bi = st.bj → st.bi ≤ fuel →
      extBack a a 0 0 fuel st = ⟨0, 0, st.bs + st.bi⟩ := by
  intro fuel
  induction fuel with
  | zero =>
    intro st hd hb
    have h0 : st.bi = 0 := by omega
    rw [extBack, show (⟨0, 0, st.bs + st.bi⟩ : MB) = ⟨st.bi, st.bj, st.bs⟩ by
      rw [← hd, h0, Nat.add_zero]]
  | succ fuel ih =>
    intro st hd hb
    rw [extBack]
    by_cases h0 : 0 < st.bi
    · rw [if_pos ⟨h0, by omega, by rw [← hd]⟩]
      rw [ih ⟨st.bi - 1, st.bj - 1, st.bs + 1⟩ (by show st.bi - 1 = st.bj - 1; omega)
        (by show st.bi - 1 ≤ fuel; omega)]
      show (⟨0, 0, st.bs + 1 + (st.bi - 1)⟩ : MB) = ⟨0, 0, st.bs + st.bi⟩
      rw [show st.bs + 1 + (st.bi - 1) = st.bs + st.bi by omega]
    · rw [if_neg (by intro hc; exact absurd hc.1 h0)]
      have h0' : st.bi = 0 := by omega
      rw [show (⟨0, 0, st.bs + st.bi⟩ : MB) = ⟨st.bi, st.bj, st.bs⟩ by
        rw [← hd, h0', Nat.add_zero]]

/-- The forward extension of a match anchored at the origin on `(a, a)` runs
to the full length. -/
theorem extFwd_diag (a : List Str) :
    ∀ (fuel : Nat) (st : MB), st.bi = 0 → st.bj = 0 → st.bs ≤ a.length →
      a.length - st.bs ≤ fuel →
      extFwd a a a.length a.length fuel st = ⟨0, 0, a.length⟩ := by
  intro fuel
  induction fuel with
  | zero =>
    intro st h1 h2 h3 h4
    have he : st.bs = a.length := by omega
    rw [extFwd, show (⟨0, 0, a.length⟩ : MB) = ⟨st.bi, st.bj, st.bs⟩ by
      rw [h1, h2, he]]
  | succ fuel ih =>
    intro st h1 h2 h3 h4
    rw [extFwd]
    by_cases hlt : st.bs < a.length
    · rw [if_pos ⟨by omega, by omega, by rw [h1, h2]⟩]
      exact ih ⟨st.bi, st.bj, st.bs + 1⟩ h1 h2
        (by show st.bs + 1 ≤ a.length; omega)
        (by show a.length - (st.bs + 1) ≤ fuel; omega)
    · rw [if_neg (by intro hc; rw [h1] at hc; omega)]
      have he : st.bs = a.length := by omega
      rw [show (⟨0, 0, a.length⟩ : MB) = ⟨st.bi, st.bj, st.bs⟩ by
        rw [h1, h2, he]]

/-- `find_longest_match` on identical inputs over the full square returns
the whole diagonal. -/
theorem flm_self (a : List Str) : flm a a 0 a.length 0 a.length = ⟨0, 0, a.length⟩ := by
  have hd := mainLoop_self_diag a
  have hM := mainLoop_self_isMatch a
  rcases hM with ⟨hM1, hM2, hM3, hM4, hM5⟩
  have e1 : extBack a a 0 0 ((mainLoop a a 0 a.length 0 a.length).bi - 0)
      (mainLoop a a 0 a.length 0 a.length)
      = ⟨0, 0, (mainLoop a a 0 a.length 0 a.length).bs
          + (mainLoop a a 0 a.length 0 a.length).bi⟩ :=
    extBack_diag a _ _ hd (by omega)
  show extFwd a a a.length a.length _ _ = _
  rw [e1]
  refine extFwd_diag a _ _ rfl rfl ?_ ?_
  · show (mainLoop a a 0 a.length 0 a.length).bs
      + (mainLoop a a 0 a.length 0 a.length).bi ≤ a.length
    omega
  · show a.length - ((mainLoop a a 0 a.length 0 a.length).bs
        + (mainLoop a a 0 a.length 0 a.length).bi)
      ≤ a.length - (0 + ((mainLoop a a 0 a.length 0 a.length).bs
        + (mainLoop a a 0 a.length 0 a.length).bi))
    omega

/-- On identical nonempty inputs the matcher's opcodes are the single
`equal` span over everything. -/
theorem getOpcodes_self (a : List Str) (ha : a ≠ []) :
    getOpcodes a a = [⟨.equal, 0, a.length, 0, a.length⟩] := by
  have hn : 0 < a.length := List.length_pos.2 ha
  have hblocks : mblocksF a a (a.length + a.length + 1) (0, a.length, 0, a.length)
      = [(0, 0, a.length)] := by
    rw [mblocksF, flm_self]
    rw [if_neg (show ¬ (⟨0, 0, a.length⟩ : MB).bs = 0 by show ¬ a.length = 0; omega)]
    rw [if_neg (show ¬ ((0:Nat) < (⟨0, 0, a.length⟩ : MB).bi ∧
        (0:Nat) < (⟨0, 0, a.length⟩ : MB).bj) by
      intro h
      have h1 : (0:Nat) < 0 := h.1
      omega)]
    rw [if_neg (show ¬ ((⟨0, 0, a.length⟩ : MB).bi + (⟨0, 0, a.length⟩ : MB).bs < a.length ∧
        (⟨0, 0, a.length⟩ : MB).bj + (⟨0, 0, a.length⟩ : MB).bs < a.length) by
      intro h
      have : (0:Nat) + a.length < a.length := h.1
      omega)]
    rfl
  have hmerged : matchingBlocks a a = [(0, 0, a.length), (a.length, a.length, 0)] := by
    unfold matchingBlocks
    rw [hblocks, mergeGo, if_pos ⟨rfl, rfl⟩, mergeGo,
      if_neg (show ¬ 0 + a.length = 0 by omega)]
    rw [show 0 + a.length = a.length by omega]
    rfl
  unfold getOpcodes
  rw [hmerged]
  simp [opcodesGo, show a.length ≠ 0 by omega]

theorem sanChar_eq_self {c : Char} (h1 : c ≠ '<') (h2 : c ≠ '>')
    (h3 : c ≠ '{') (h4 : c ≠ '}') : sanChar c = [c] := by
  unfold sanChar
  rw [if_neg h1, if_neg h2, if_neg h3, if_neg h4]

theorem sanChar_no_nl {c : Char} (h : c ≠ '\n') : ∀ d ∈ sanChar c, d ≠ '\n' := by
  by_cases h1 : c = '<'
  · subst h1; decide
  · by_cases h2 : c = '>'
    · subst h2; decide
    · by_cases h3 : c = '{'
      · subst h3; decide
      · by_cases h4 : c = '}'
        · subst h4; decide
        · rw [sanChar_eq_self h1 h2 h3 h4]
          intro d hd
          rw [List.mem_singleton] at hd
          subst hd
          exact h

theorem sanChar_ne_nil (c : Char) : sanChar c ≠ [] := by
  by_cases h1 : c = '<'
  · subst h1; decide
  · by_cases h2 : c = '>'
    · subst h2; decide
    · by_cases h3 : c = '{'
      · subst h3; decide
      · by_cases h4 : c = '}'
        · subst h4; decide
        · rw [sanChar_eq_self h1 h2 h3 h4]
          exact List.cons_ne_nil c []

/-- Prepending a character that does not open a `'\n\n'` separator just
extends the first paragraph piece. -/
theorem splitTwoNl_cons_of (c : Char) (l : Str)
    (h : ¬ (c = '\n' ∧ l.head? = some '\n')) :
    splitTwoNl (c :: l) = consHead c (splitTwoNl l) := by
  cases l with
  | nil => rfl
  | cons c2 rest =>
    rw [splitTwoNl, if_neg]
    intro hc
    exact h ⟨hc.1, by rw [List.head?_cons, hc.2]⟩

theorem foldr_consHead : ∀ (x h : Str) (t : List Str),
    x.foldr consHead (h :: t) = (x ++ h) :: t := by
  intro x
  induction x with
  | nil => intro h t; rfl
  | cons c x ih =>
    intro h t
    rw [List.foldr_cons, ih, List.cons_append]
    rfl

/-- Splitting after prepending newline-free text extends the first piece. -/
theorem splitTwoNl_no_nl_append :
    ∀ (x : Str), (∀ d ∈ x, d ≠ '\n') → ∀ l,
      splitTwoNl (x ++ l) = x.foldr consHead (splitTwoNl l) := by
  intro x
  induction x with
  | nil => intro _ l; rfl
  | cons c x ih =>
    intro hx l
    rw [List.cons_append, splitTwoNl_cons_of c (x ++ l)
      (fun hc => hx c (List.mem_cons_self c x) hc.1),
      ih (fun d hd => hx d (List.mem_cons_of_mem c hd)) l]
    rfl

/-- Sanitisation commutes with paragraph splitting: the replacement strings
contain no newline, and newlines are mapped to themselves. -/
theorem splitTwoNl_flatMap :
    ∀ s : Str, splitTwoNl (s.flatMap sanChar)
      = (splitTwoNl s).map (fun p => p.flatMap sanChar) := by
  intro s
  have hnl : sanChar '\n' = ['\n'] :=
    sanChar_eq_self (by decide) (by decide) (by decide) (by decide)
  induction s using splitTwoNl.induct with
  | case1 => rfl
  | case2 c =>
    by_cases h1 : c = '<'
    · subst h1; decide
    · by_cases h2 : c = '>'
      · subst h2; decide
      · by_cases h3 : c = '{'
        · subst h3; decide
        · by_cases h4 : c = '}'
          · subst h4; decide
          · have hsan := sanChar_eq_self h1 h2 h3 h4
            show splitTwoNl (([c] : Str).flatMap sanChar) = [([c] : Str).flatMap sanChar]
            rw [show ([c] : Str).flatMap sanChar = [c] by
              rw [List.flatMap_cons, List.flatMap_nil, hsan, List.append_nil]]
            rfl
  | case3 c1 c2 rest hcond ih =>
    rcases hcond with ⟨hc1, hc2⟩
    subst hc1
    subst hc2
    rw [show splitTwoNl ('\n' :: '\n' :: rest) = [] :: splitTwoNl rest by
      rw [splitTwoNl, if_pos ⟨rfl, rfl⟩]]
    rw [List.flatMap_cons, List.flatMap_cons, hnl, List.singleton_append,
      List.singleton_append]
    rw [show splitTwoNl ('\n' :: '\n' :: rest.flatMap sanChar)
        = [] :: splitTwoNl (rest.flatMap sanChar) by
      rw [splitTwoNl, if_pos ⟨rfl, rfl⟩]]
    rw [ih, List.map_cons]
    rfl
  | case4 c1 c2 rest hcond ih =>
    rcases List.exists_cons_of_ne_nil (splitTwoNl_ne_nil (c2 :: rest)) with ⟨h, t, hht⟩
    rw [show splitTwoNl (c1 :: c2 :: rest) = consHead c1 (splitTwoNl (c2 :: rest)) by
      rw [splitTwoNl, if_neg hcond]]
    rw [hht]
    rw [List.flatMap_cons]
    by_cases hc1 : c1 = '\n'
    · subst hc1
      have hc2 : c2 ≠ '\n' := fun h2 => hcond ⟨rfl, h2⟩
      rcases List.exists_cons_of_ne_nil (sanChar_ne_nil c2) with ⟨d, ds, hd⟩
      have hdnl : d ≠ '\n' := sanChar_no_nl hc2 d (by rw [hd]; exact List.mem_cons_self d ds)
      rw [hnl, List.singleton_append]
      rw [splitTwoNl_cons_of '\n' ((c2 :: rest).flatMap sanChar) ?_]
      · rw [ih, hht, List.map_cons]
        rfl
      · intro hc
        refine hdnl ?_
        have : ((c2 :: rest).flatMap sanChar).head? = some d := by
          rw [List.flatMap_cons, hd, List.cons_append, List.head?_cons]
        rw [this] at hc
        exact (Option.some_inj.1 hc.2)
    · rw [splitTwoNl_no_nl_append (sanChar c1) (sanChar_no_nl hc1) _, ih, hht,
        List.map_cons, foldr_consHead]
      rw [show consHead c1 (h :: t) = (c1 :: h) :: t from rfl, List.map_cons,
        List.flatMap_cons]

/-- `sanitize` commutes with paragraph splitting. -/
theorem splitTwoNl_sanitize (s : Str) :
    splitTwoNl (sanitize s) = (splitTwoNl s).map sanitize := by
  rw [sanitize_eq_flatMap, splitTwoNl_flatMap]
  exact List.map_congr_left (fun p _ => (sanitize_eq_flatMap p).symm)

theorem range'_map_getD_map {β : Type} (l : List Str) (g : Str → β) :
    (List.range' 0 l.length).map (fun i => g (l.getD i [])) = l.map g := by
  have h := range'_map_getD l l.length 0 (by omega)
  rw [Nat.zero_add] at h
  calc (List.range' 0 l.length).map (fun i => g (l.getD i []))
      = ((List.range' 0 l.length).map (fun t => l.getD t [])).map g := by
        rw [List.map_map]
        rfl
    _ = (pySlice l 0 l.length).map g := by rw [h]
    _ = l.map g := by rw [pySlice_full]

/-- C3: `compare_texts(T, T)` yields only `equal` records, exactly one per
paragraph of the (sanitised) text, each with `old_content = new_content`
equal to that paragraph; and sanitisation commutes with paragraph
splitting, so there is exactly one record per paragraph of `T` itself,
carrying the sanitised form of that paragraph. -/
theorem compare_texts_identity (T : Str) :
    compare_texts T T
      = (splitTwoNl (sanitize T)).map
          (fun p => (⟨"equal".data, p, p⟩ : DiffRecord)) ∧
    splitTwoNl (sanitize T) = (splitTwoNl T).map sanitize := by
  refine ⟨?_, splitTwoNl_sanitize T⟩
  show (getOpcodes (splitTwoNl (sanitize T)) (splitTwoNl (sanitize T))).flatMap
      (emitParaOp (splitTwoNl (sanitize T)) (splitTwoNl (sanitize T))) = _
  rw [getOpcodes_self _ (splitTwoNl_ne_nil _)]
  rw [List.flatMap_cons, List.flatMap_nil, List.append_nil]
  show (List.range' 0 ((splitTwoNl (sanitize T)).length - 0)).map
      (fun i => (⟨"equal".data, (splitTwoNl (sanitize T)).getD i [],
        (splitTwoNl (sanitize T)).getD i []⟩ : DiffRecord))
    = (splitTwoNl (sanitize T)).map
        (fun p => (⟨"equal".data, p, p⟩ : DiffRecord))
  rw [Nat.sub_zero]
  exact range'_map_getD_map (splitTwoNl (sanitize T))
    (fun p => (⟨"equal".data, p, p⟩ : DiffRecord))

end PdfCompare
